import Mathlib

/-!
# Verification of the weekly production scheduling engine

A shallow embedding of the scheduling engine of `src/views/schedule.py`
(`create_schedule_from_weekly` and its helpers `get_allowed_shifts`,
`get_urgency`, `load_sales_for_week`, `build_weekly_data`), together with
proofs and refutations of the specification's claims about it.

Conventions of the embedding:
* pandas DataFrame rows become typed structures (`Row`, `Sale`, `InvRow`);
  the `fillna`/`astype` plumbing of the source is absorbed by the types.
* Python ints are `Int`; machine overflow does not occur in CPython ints.
* Python dicts keyed by product name become insertion-ordered association
  lists (`List (String × _)`); dict update keeps the position of the key,
  dict insert appends, exactly as CPython's insertion-ordered dicts do.
* Python's stable `list.sort(key=...)` becomes `stableSort` (a stable
  insertion sort) with the corresponding `≤`-on-keys comparator.
* Calendar dates become `Int` day numbers with day 0 a Monday, so that
  `date + 1` is the next day and weekday(d) = d % 7.
-/

namespace ProdSched

/-- `DAYS = ["월", "화", "수", "목", "금"]` is modelled by day indices 0–4. -/
def numDays : Nat := 5

/-- `DAILY_LIMIT = 200` (units per day/shift slot). -/
def DAILY_LIMIT : Int := 200

/-- `WORK_HOURS = 8 * 60 * 60` (seconds per shift). -/
def WORK_HOURS : Int := 8 * 60 * 60

/-- `BATCH_SIZE = 1`. -/
def BATCH_SIZE : Int := 1

/-- The two shifts: `주간` (day) and `야간` (night). -/
inductive Shift where
  | day : Shift
  | night : Shift
deriving DecidableEq, Repr

/-- Python's `str.strip()`: drop leading and trailing whitespace.  Defined
by structural recursion on the character list so that the kernel can
evaluate it (the whitespace forms occurring in this data are space, tab,
CR and LF, which is what `Char.isWhitespace` covers). -/
def pyStrip (s : String) : String :=
  ⟨((s.data.dropWhile Char.isWhitespace).reverse.dropWhile Char.isWhitespace).reverse⟩

/-- Python's `str.startswith(pre)`. -/
def pyStartsWith (s pre : String) : Bool :=
  pre.data.isPrefixOf s.data

/-- Does `needle` occur as a contiguous run inside `hay`? -/
def substrAux (needle : List Char) : List Char → Bool
  | [] => needle.isEmpty
  | c :: rest => needle.isPrefixOf (c :: rest) || substrAux needle rest

/-- Python's substring test `needle in hay` on strings. -/
def substrIn (needle hay : String) : Bool :=
  substrAux needle.data hay.data

/-- `get_allowed_shifts(production_timing)` (schedule.py:43-49): an empty
string is falsy and defaults to `"주야"`; otherwise the value is stripped;
`"주"` means day only, `"야"` night only, anything else both shifts. -/
def getAllowedShifts (productionTiming : String) : List Shift :=
  let timing := if productionTiming ≠ "" then pyStrip productionTiming else "주야"
  if timing = "주" then [Shift.day]
  else if timing = "야" then [Shift.night]
  else [Shift.day, Shift.night]

/-- `get_urgency(reason, product, deadline_days, is_next_week)`
(schedule.py:51-63).  The `product` argument is unused in the source and is
kept for fidelity. -/
def getUrgency (reason : String) (product : String) (deadlineDays : Int)
    (isNextWeek : Bool) : Int :=
  let u : Int := 0
  let u := if substrIn "2일치 부족" reason then u + 80 else u
  let u := if isNextWeek || substrIn "다음주" reason then u - 30 else u
  let u := if substrIn "안전재고" reason && !(substrIn "2일치" reason) then u + 20 else u
  let u := if deadlineDays ≤ 0 then u + 60
           else if deadlineDays = 1 then u + 30 else u
  let _ := product
  u

/-- Insert `x` after every element `h` with `le h x`; the insertion step of a
stable insertion sort matching Python's stable `list.sort`. -/
def insertLe (le : α → α → Bool) (x : α) : List α → List α
  | [] => [x]
  | h :: t => if le h x then h :: insertLe le x t else x :: h :: t

/-- Stable sort: equal-key elements keep their original relative order,
like Python's `list.sort(key=...)`.  `le a b` must mean "key of `a` ≤ key of
`b`". -/
def stableSort (le : α → α → Bool) (l : List α) : List α :=
  l.foldl (fun acc x => insertLe le x acc) []

/-- Ordered-dict update: replace the (first) binding of key `p`, keeping its
position; append if absent.  This is CPython dict assignment `d[p] = v`. -/
def setEntry (l : List (String × α)) (p : String) (v : α) : List (String × α) :=
  match l with
  | [] => [(p, v)]
  | (q, w) :: t => if q == p then (p, v) :: t else (q, w) :: setEntry t p v

/-- Dict membership/lookup `l[p]` as an option. -/
def findEnt (l : List (String × α)) (p : String) : Option (String × α) :=
  l.find? fun e => e.1 == p

/-- One row of the weekly DataFrame produced by `build_weekly_data`
(schedule.py:286-301): product name, Monday–Saturday quantities, current
stock, per-unit seconds, minimum production quantity, production timing, and
the next-Monday / next-Tuesday quantities. -/
structure Row where
  product : String
  mon : Int
  tue : Int
  wed : Int
  thu : Int
  fri : Int
  sat : Int
  stock : Int
  sec : Int
  minQty : Int
  timing : String
  nextMon : Int
  nextTue : Int
deriving DecidableEq, Repr

/-- `row[DAYS[i]]` for `i = 0..4`. -/
def Row.daySales (r : Row) : Nat → Int
  | 0 => r.mon
  | 1 => r.tue
  | 2 => r.wed
  | 3 => r.thu
  | 4 => r.fri
  | _ => 0

/-- `df["주간판매"] = df[DAYS].sum(axis=1)` (schedule.py:314). -/
def Row.weeklySales (r : Row) : Int := r.mon + r.tue + r.wed + r.thu + r.fri

/-- `max([row[d] for d in DAYS])` (schedule.py:337). -/
def Row.maxDailySales (r : Row) : Int :=
  max r.mon (max r.tue (max r.wed (max r.thu r.fri)))

/-- The row filtering and normalisation at the head of
`create_schedule_from_weekly` (schedule.py:313-323): keep rows whose
Monday–Friday sales sum is positive and strip the production-timing string.
(The `notna`/`fillna` steps have no counterpart on typed fields.) -/
def prepRows (rows : List Row) : List Row :=
  (rows.filter fun r => r.weeklySales > 0).map fun r => { r with timing := pyStrip r.timing }

/-- `'production_timing': str(row["생산시점"]).strip() if row["생산시점"] else "주야"`
(schedule.py:378, 481). -/
def normTiming (t : String) : String := if t = "" then "주야" else pyStrip t

/-- A production-plan event (schedule.py:371-379 / 474-482). -/
structure Plan where
  product : String
  deadline : Nat
  qty : Int
  sec : Int
  reason : String
  nextWeek : Bool
  timing : String
deriving DecidableEq, Repr

/-- `p.startswith("(쿠)")` (schedule.py:365). -/
def isCoo (p : String) : Bool := pyStartsWith p "(쿠)"

/-- The body of the first simulation loop of `create_schedule_from_weekly`
for one day (schedule.py:340-383): decides whether a production event is
created on day `i` and returns the updated running stock.
`math.ceil(shortage / BATCH_SIZE) * BATCH_SIZE` with `BATCH_SIZE = 1` leaves
the integer `shortage` unchanged. -/
def firstPassDay (r : Row) (i : Nat) (stock : Int) : Option Plan × Int :=
  let dailySales := r.daySales i
  let stockAfterSales := stock - dailySales
  let futureSales :=
    if i = 4 then dailySales + r.sat + r.nextMon + r.nextTue
    else r.daySales i + r.daySales (i + 1)
  if stock < futureSales ∨ stockAfterSales < r.maxDailySales then
    let shortage := if stock < futureSales then futureSales - stock
                    else r.maxDailySales - stockAfterSales
    let reason0 : String := if stock < futureSales then "2일치 부족" else "안전재고 확보"
    let productionQty := shortage
    let minQty := if r.minQty > 0 then r.minQty else 0
    let productionQty := if minQty > 0 then max productionQty minQty else productionQty
    let deadline := if isCoo r.product then i - 2 else min (i + 1) 4
    let reason := if isCoo r.product then reason0 ++ " (쿠:2일전)" else reason0
    (some { product := r.product, deadline := deadline, qty := productionQty,
            sec := r.sec, reason := reason, nextWeek := false,
            timing := normTiming r.timing },
     stock + productionQty - dailySales)
  else
    (none, stock - dailySales)

/-- Iterate `firstPassDay` over the given day indices, threading the running
stock and collecting the produced events in day order. -/
def firstPassAux (r : Row) : List Nat → Int → List Plan
  | [], _ => []
  | i :: rest, stock =>
    match firstPassDay r i stock with
    | (some pl, stock') => pl :: firstPassAux r rest stock'
    | (none, stock') => firstPassAux r rest stock'

/-- All first-pass production events of one row (schedule.py:333-383). -/
def firstPassRow (r : Row) : List Plan := firstPassAux r [0, 1, 2, 3, 4] r.stock

/-- The day indices at which the first pass creates an event for `r`
(observation of the same loop, used to compare against the claimed
lookahead rule). -/
def firstPassFlagsAux (r : Row) : List Nat → Int → List Nat
  | [], _ => []
  | i :: rest, stock =>
    match firstPassDay r i stock with
    | (some _, stock') => i :: firstPassFlagsAux r rest stock'
    | (none, stock') => firstPassFlagsAux r rest stock'

/-- Flagged days of the first simulation pass. -/
def firstPassFlags (r : Row) : List Nat := firstPassFlagsAux r [0, 1, 2, 3, 4] r.stock

/-- `production_plan` after the per-row loop (schedule.py:331-383): rows in
order, each row's events in day order. -/
def plansOfRows (g : Row → List Plan) : List Row → List Plan
  | [] => []
  | r :: rest => g r ++ plansOfRows g rest

/-- The first-pass production plan of the prepared rows. -/
def productionPlanOf (rows : List Row) : List Plan :=
  plansOfRows firstPassRow (prepRows rows)

/-! ## Temporary placement (schedule.py:385-423)

A first, throw-away allocation of the first-pass events, used only to
compute the stock each product ends the week with. -/

/-- `{'qty': ..., 'sec': ...}` of the temporary schedule. -/
structure TempEntry where
  qty : Int
  sec : Int
deriving DecidableEq, Repr

/-- `temp_schedule` / `temp_daily_sum` / `temp_daily_time`
(schedule.py:386-388). -/
structure TempState where
  sched : Nat → Shift → List (String × TempEntry)
  dsum : Nat → Shift → Int
  dtime : Nat → Shift → Int

/-- All-empty initial temporary state. -/
def tempInit : TempState :=
  { sched := fun _ _ => [], dsum := fun _ _ => 0, dtime := fun _ _ => 0 }

/-- One attempt to put the whole event into slot `(day, sh)`
(schedule.py:404-420): accumulate onto an existing entry of the same
product, else insert a new entry, in both cases only if the quantity and
time ceilings stay respected; `none` if the slot rejects the event.
Note the source subtracts `old_qty * sec` with the *current* event's `sec`
(schedule.py:408-410). -/
def tempTrySlot (st : TempState) (day : Nat) (sh : Shift) (p : String)
    (qty sec : Int) : Option TempState :=
  match findEnt (st.sched day sh) p with
  | some pe =>
    let newQty := pe.2.qty + qty
    let newTime := newQty * sec
    if st.dsum day sh - pe.2.qty + newQty ≤ DAILY_LIMIT ∧
       st.dtime day sh - pe.2.qty * sec + newTime ≤ WORK_HOURS then
      some { sched := fun d s => if d = day ∧ s = sh
               then setEntry (st.sched day sh) p ⟨newQty, sec⟩ else st.sched d s,
             dsum := fun d s => if d = day ∧ s = sh
               then st.dsum day sh - pe.2.qty + newQty else st.dsum d s,
             dtime := fun d s => if d = day ∧ s = sh
               then st.dtime day sh - pe.2.qty * sec + newTime else st.dtime d s }
    else none
  | none =>
    if st.dsum day sh + qty ≤ DAILY_LIMIT ∧
       st.dtime day sh + qty * sec ≤ WORK_HOURS then
      some { sched := fun d s => if d = day ∧ s = sh
               then st.sched day sh ++ [(p, ⟨qty, sec⟩)] else st.sched d s,
             dsum := fun d s => if d = day ∧ s = sh
               then st.dsum day sh + qty else st.dsum d s,
             dtime := fun d s => if d = day ∧ s = sh
               then st.dtime day sh + qty * sec else st.dtime d s }
    else none

/-- Try the shifts of one day in order (schedule.py:403-420). -/
def tempTryShifts (st : TempState) (day : Nat) (p : String) (qty sec : Int) :
    List Shift → Option TempState
  | [] => none
  | sh :: rest =>
    match tempTrySlot st day sh p qty sec with
    | some st' => some st'
    | none => tempTryShifts st day p qty sec rest

/-- Try the candidate days in order, stopping at the first success
(schedule.py:401-422). -/
def tempDays (pl : Plan) (st : TempState) : List Nat → TempState
  | [] => st
  | day :: rest =>
    match tempTryShifts st day pl.product pl.qty pl.sec (getAllowedShifts pl.timing) with
    | some st' => st'
    | none => tempDays pl st rest

/-- `temp_daily_sum[DAYS[x]]['주간'] + temp_daily_sum[DAYS[x]]['야간']`,
the sort key of `valid_days` (schedule.py:397). -/
def tempLoad (st : TempState) (d : Nat) : Int :=
  st.dsum d Shift.day + st.dsum d Shift.night

/-- Temporary placement of one event (schedule.py:390-422): candidate days
`0..deadline`, stably sorted ascending by current total placed quantity. -/
def tempPlacePlan (st : TempState) (pl : Plan) : TempState :=
  let validDays := stableSort (fun a b => decide (tempLoad st a ≤ tempLoad st b))
    (List.range (pl.deadline + 1))
  tempDays pl st validDays

/-- The temporary schedule after placing all first-pass events. -/
def tempStateOf (rows : List Row) : TempState :=
  (productionPlanOf rows).foldl tempPlacePlan tempInit

/-- Quantity of product `p` in a temp slot, 0 if absent. -/
def tempQtyIn (l : List (String × TempEntry)) (p : String) : Int :=
  match findEnt l p with
  | some pe => pe.2.qty
  | none => 0

/-- `final_stocks[p]` for one row (schedule.py:424-433): start from current
stock, and per day add the temporarily placed quantities of both shifts and
subtract that day's sales. -/
def finalStock (ts : TempState) (r : Row) : Int :=
  [0, 1, 2, 3, 4].foldl
    (fun stock d =>
      stock + tempQtyIn (ts.sched d Shift.day) r.product
            + tempQtyIn (ts.sched d Shift.night) r.product
            - r.daySales d)
    r.stock

/-- The `final_stocks` dict (keyed by product name; a later row with the
same name overwrites an earlier one, as in the source). -/
def finalStocksOf (rows : List Row) : List (String × Int) :=
  (prepRows rows).foldl
    (fun m r => setEntry m r.product (finalStock (tempStateOf rows) r)) []

/-- `final_stocks[p]` lookup (always present in the source's flow; the
default is unreachable there). -/
def lookupStock (m : List (String × Int)) (p : String) : Int :=
  match findEnt m p with
  | some e => e.2
  | none => 0

/-! ## Second simulation pass: next-week events (schedule.py:435-487) -/

/-- The body of the second simulation loop for one day
(schedule.py:443-484).  Differences from the first pass: Friday's future
sales omit next Tuesday, the reasons are `다음주 ...`, the non-`(쿠)`
deadline is Friday (4), the `(쿠)` deadline is `min(len(DAYS)-3, max(0, i-2))`,
and the event is marked `next_week`. -/
def additionalPassDay (r : Row) (i : Nat) (stock : Int) : Option Plan × Int :=
  let dailySales := r.daySales i
  let stockAfterSales := stock - dailySales
  let futureSales :=
    if i = 4 then dailySales + r.sat + r.nextMon
    else r.daySales i + r.daySales (i + 1)
  if stock < futureSales ∨ stockAfterSales < r.maxDailySales then
    let shortage := if stock < futureSales then futureSales - stock
                    else r.maxDailySales - stockAfterSales
    let reason0 : String := if stock < futureSales then "다음주 2일치" else "다음주 안전재고"
    let productionQty := shortage
    let minQty := if r.minQty > 0 then r.minQty else 0
    let productionQty := if minQty > 0 then max productionQty minQty else productionQty
    let deadline := if isCoo r.product then min (numDays - 3) (i - 2) else numDays - 1
    let reason := if isCoo r.product then reason0 ++ " (쿠:2일전)" else reason0
    (some { product := r.product, deadline := deadline, qty := productionQty,
            sec := r.sec, reason := reason, nextWeek := true,
            timing := normTiming r.timing },
     stock + productionQty - dailySales)
  else
    (none, stock - dailySales)

/-- Iterate `additionalPassDay` over the week. -/
def additionalAux (r : Row) : List Nat → Int → List Plan
  | [], _ => []
  | i :: rest, stock =>
    match additionalPassDay r i stock with
    | (some pl, stock') => pl :: additionalAux r rest stock'
    | (none, stock') => additionalAux r rest stock'

/-- One row's next-week events, starting from its `final_stocks` value. -/
def additionalRow (fs : List (String × Int)) (r : Row) : List Plan :=
  additionalAux r [0, 1, 2, 3, 4] (lookupStock fs r.product)

/-- `additional_plan` before sorting (schedule.py:436-484). -/
def additionalPlanOf (rows : List Row) : List Plan :=
  plansOfRows (additionalRow (finalStocksOf rows)) (prepRows rows)

/-- `additional_plan.sort(key=lambda x: (x['deadline'], -x['qty'] * x['sec']))`
(schedule.py:486): deadline ascending, then work time `qty * sec` descending. -/
def addPlanLe (a b : Plan) : Bool :=
  decide (a.deadline < b.deadline) ||
    (decide (a.deadline = b.deadline) && decide (b.qty * b.sec ≤ a.qty * a.sec))

/-- The sorted `additional_plan`. -/
def additionalSortedOf (rows : List Row) : List Plan :=
  stableSort addPlanLe (additionalPlanOf rows)

/-- `production_plan.extend(additional_plan)` (schedule.py:487). -/
def fullPlanOf (rows : List Row) : List Plan :=
  productionPlanOf rows ++ additionalSortedOf rows

/-- `first_week_plan` (schedule.py:494). -/
def firstWeekPlanOf (rows : List Row) : List Plan :=
  (fullPlanOf rows).filter fun pl => !pl.nextWeek

/-- `next_week_plan` (schedule.py:495). -/
def nextWeekPlanOf (rows : List Row) : List Plan :=
  (fullPlanOf rows).filter fun pl => pl.nextWeek

/-- `first_week_plan.sort(key=lambda x: -x['urgency'])` with
`plan['urgency'] = get_urgency(plan['reason'], plan['product'], 0, False)`
(schedule.py:497-499): urgency descending, stable. -/
def fwSortLe (a b : Plan) : Bool :=
  decide (getUrgency b.reason b.product 0 false ≤ getUrgency a.reason a.product 0 false)

/-- The order in which the first-week events are consumed by the final
allocation loop. -/
def firstWeekSortedOf (rows : List Row) : List Plan :=
  stableSort fwSortLe (firstWeekPlanOf rows)

/-! ## Final allocation (schedule.py:489-612) -/

/-- A schedule slot entry `{'qty', 'sec', 'reason', 'urgency'}`. -/
structure Entry where
  qty : Int
  sec : Int
  reason : String
  urgency : Int
deriving DecidableEq, Repr

/-- `schedule` / `daily_sum` / `daily_time` (schedule.py:490-492). -/
structure SchedState where
  sched : Nat → Shift → List (String × Entry)
  dsum : Nat → Shift → Int
  dtime : Nat → Shift → Int

/-- All-empty initial schedule state. -/
def schedInit : SchedState :=
  { sched := fun _ _ => [], dsum := fun _ _ => 0, dtime := fun _ _ => 0 }

/-- Python's `reason and reason not in old_reason` merge of justification
strings (schedule.py:530-533 and 589-592). -/
def mergeReason (oldReason reason : String) : String :=
  if reason ≠ "" ∧ substrIn reason oldReason = false then
    (if oldReason ≠ "" then oldReason ++ " + " ++ reason else reason)
  else oldReason

/-- One attempt to put the whole event into slot `(day, sh)`
(schedule.py:522-549 for the first-week loop, 581-608 for the next-week
loop, which passes `urg = 0`): accumulate onto an existing entry of the
same product (merging reasons), else insert a new entry; in both cases only
if quantity and time ceilings stay respected.  As in the source, the
accumulate branch subtracts `old_qty * sec` with the *current* event's
`sec`. -/
def trySlot (st : SchedState) (day : Nat) (sh : Shift) (p : String)
    (qty sec : Int) (reason : String) (urg : Int) : Option SchedState :=
  match findEnt (st.sched day sh) p with
  | some pe =>
    let newQty := pe.2.qty + qty
    let newTime := newQty * sec
    if st.dsum day sh - pe.2.qty + newQty ≤ DAILY_LIMIT ∧
       st.dtime day sh - pe.2.qty * sec + newTime ≤ WORK_HOURS then
      some { sched := fun d s => if d = day ∧ s = sh
               then setEntry (st.sched day sh) p
                 ⟨newQty, sec, mergeReason pe.2.reason reason, urg⟩
               else st.sched d s,
             dsum := fun d s => if d = day ∧ s = sh
               then st.dsum day sh - pe.2.qty + newQty else st.dsum d s,
             dtime := fun d s => if d = day ∧ s = sh
               then st.dtime day sh - pe.2.qty * sec + newTime else st.dtime d s }
    else none
  | none =>
    if st.dsum day sh + qty ≤ DAILY_LIMIT ∧
       st.dtime day sh + qty * sec ≤ WORK_HOURS then
      some { sched := fun d s => if d = day ∧ s = sh
               then st.sched day sh ++ [(p, ⟨qty, sec, reason, urg⟩)]
               else st.sched d s,
             dsum := fun d s => if d = day ∧ s = sh
               then st.dsum day sh + qty else st.dsum d s,
             dtime := fun d s => if d = day ∧ s = sh
               then st.dtime day sh + qty * sec else st.dtime d s }
    else none

/-- Try the shifts of one day in the given preference order
(schedule.py:522-549 / 581-608). -/
def tryShifts (st : SchedState) (day : Nat) (p : String) (qty sec : Int)
    (reason : String) (urg : Int) : List Shift → Option SchedState
  | [] => none
  | sh :: rest =>
    match trySlot st day sh p qty sec reason urg with
    | some st' => some st'
    | none => tryShifts st day p qty sec reason urg rest

/-- `daily_sum[DAYS[x]]['주간'] + daily_sum[DAYS[x]]['야간']`, the
`valid_days` sort key of the first-week loop (schedule.py:511). -/
def fwLoad (st : SchedState) (d : Nat) : Int :=
  st.dsum d Shift.day + st.dsum d Shift.night

/-- First-week day loop (schedule.py:514-551): per candidate day the
urgency is recomputed with `deadline - day_idx`; with two allowed shifts
the preference is day-first iff that urgency is at least 30. -/
def fwDays (pl : Plan) (st : SchedState) : List Nat → SchedState
  | [] => st
  | day :: rest =>
    let currentUrgency := getUrgency pl.reason pl.product ((pl.deadline : Int) - (day : Int)) false
    let allowed := getAllowedShifts pl.timing
    let shiftPref :=
      if allowed.length = 2 then
        (if 30 ≤ currentUrgency then [Shift.day, Shift.night]
         else [Shift.night, Shift.day])
      else allowed
    match tryShifts st day pl.product pl.qty pl.sec pl.reason currentUrgency shiftPref with
    | some st' => st'
    | none => fwDays pl st rest

/-- Placement of one first-week event (schedule.py:501-551): candidate days
`0..deadline`, stably sorted ascending by current total placed quantity. -/
def fwPlacePlan (st : SchedState) (pl : Plan) : SchedState :=
  let validDays := stableSort (fun a b => decide (fwLoad st a ≤ fwLoad st b))
    (List.range (pl.deadline + 1))
  fwDays pl st validDays

/-- The next-week loop's `load_score` comparator (schedule.py:563-569).
The source computes the float
`total_qty / DAILY_LIMIT + total_time / (WORK_HOURS * 2)`; this embedding
compares the exact rational scaled by the positive constant
`DAILY_LIMIT * (WORK_HOURS * 2)`, which orders identically (for the integer
magnitudes reachable here, IEEE-754 rounding of the source's floats cannot
reorder two scores whose exact values differ, and equal exact values give
equal floats). -/
def nwScore (st : SchedState) (d : Nat) : Int :=
  (st.dsum d Shift.day + st.dsum d Shift.night) * (WORK_HOURS * 2) +
    (st.dtime d Shift.day + st.dtime d Shift.night) * DAILY_LIMIT

/-- Next-week day loop (schedule.py:572-610): with two allowed shifts the
preference is day-first iff the day shift's placed quantity does not exceed
the night shift's (the source divides both by the positive constant
`DAILY_LIMIT`, which does not change the comparison); entries of this loop
carry urgency 0. -/
def nwDays (pl : Plan) (st : SchedState) : List Nat → SchedState
  | [] => st
  | day :: rest =>
    let allowed := getAllowedShifts pl.timing
    let shiftPref :=
      if allowed.length = 2 then
        (if st.dsum day Shift.day ≤ st.dsum day Shift.night
         then [Shift.day, Shift.night] else [Shift.night, Shift.day])
      else allowed
    match tryShifts st day pl.product pl.qty pl.sec pl.reason 0 shiftPref with
    | some st' => st'
    | none => nwDays pl st rest

/-- Placement of one next-week event (schedule.py:553-610): candidate days
`0..deadline` sorted ascending by `load_score`. -/
def nwPlacePlan (st : SchedState) (pl : Plan) : SchedState :=
  let validDays := stableSort (fun a b => decide (nwScore st a ≤ nwScore st b))
    (List.range (pl.deadline + 1))
  nwDays pl st validDays

/-- `create_schedule_from_weekly` (schedule.py:311-612), restricted to the
schedule/sum/time state it computes (the remaining return values are date
labels).  First-week events are placed in urgency order, then next-week
events in `(deadline, -qty*sec)` order. -/
def createScheduleFromWeekly (rows : List Row) : SchedState :=
  (nextWeekPlanOf rows).foldl nwPlacePlan
    ((firstWeekSortedOf rows).foldl fwPlacePlan schedInit)

/-! ## Observations of a schedule state -/

/-- Quantity of product `p` placed in a slot, 0 if absent. -/
def qtyIn (l : List (String × Entry)) (p : String) : Int :=
  match findEnt l p with
  | some pe => pe.2.qty
  | none => 0

/-- Sum of the placed quantities of a slot. -/
def slotQtySum (l : List (String × Entry)) : Int :=
  (l.map fun pe => pe.2.qty).sum

/-- Sum of the placed quantities of the entries outside a given
"capacity-exempt" set. -/
def slotQtySumNonExempt (exempt : String → Bool) (l : List (String × Entry)) : Int :=
  ((l.filter fun pe => !exempt pe.1).map fun pe => pe.2.qty).sum

/-- Total production time of a slot: sum over entries of
`quantity × per-unit seconds`. -/
def slotTimeSum (l : List (String × Entry)) : Int :=
  (l.map fun pe => pe.2.qty * pe.2.sec).sum

/-- Total quantity placed anywhere in the week (days 0–4, both shifts). -/
def totalPlacedQty (st : SchedState) : Int :=
  ([0, 1, 2, 3, 4].map fun d =>
    slotQtySum (st.sched d Shift.day) + slotQtySum (st.sched d Shift.night)).sum

/-! ## The sales data pipeline (schedule.py:139-162, 244-304)

Calendar dates are `Int` day numbers with day 0 a Monday. -/

/-- One row of the `sales` table. -/
structure Sale where
  productCode : String
  saleDate : Int
  quantity : Int
deriving DecidableEq, Repr

/-- One row of the inventory/product DataFrame handed to
`build_weekly_data` (already typed; `load_inventory_from_db` fills and
casts the columns). -/
structure InvRow where
  code : String
  name : String
  stock : Int
  sec : Int
  timing : String
  minQty : Int
deriving DecidableEq, Repr

/-- `load_sales_for_week(monday)` (schedule.py:139-162): the `sales` rows
whose date lies between the chosen Monday and the following Saturday
(six days), inclusive.  The query's ordering does not matter for the sums
taken below. -/
def loadSalesForWeek (allSales : List Sale) (monday : Int) : List Sale :=
  allSales.filter fun s => monday ≤ s.saleDate ∧ s.saleDate ≤ monday + 5

/-- `day_sales["quantity"].sum()` for one exact date. -/
def sumQtyAt (l : List Sale) (date : Int) : Int :=
  ((l.filter fun s => s.saleDate = date).map fun s => s.quantity).sum

/-- `not day_sales.empty` for one exact date. -/
def anySaleAt (l : List Sale) (date : Int) : Bool :=
  l.any fun s => s.saleDate == date

/-- The per-product body of `build_weekly_data` (schedule.py:258-302):
match the sales rows by stripped product code; `none` when no sales row
matches (the product is reported as unmatched); otherwise aggregate the
quantity sold on each single date Monday..Saturday of the chosen week, with
next-Monday/next-Tuesday quantities falling back to this week's Monday and
Tuesday when those dates have no sales row. -/
def weeklyRowOf (salesDf : List Sale) (inv : InvRow) (monday : Int) : Option Row :=
  let productCode := pyStrip inv.code
  let prodSales := salesDf.filter fun s => pyStrip s.productCode == productCode
  if prodSales.isEmpty then none
  else
    let nextMonQty := if anySaleAt prodSales (monday + 7)
      then sumQtyAt prodSales (monday + 7) else sumQtyAt prodSales (monday + 0)
    let nextTueQty := if anySaleAt prodSales (monday + 8)
      then sumQtyAt prodSales (monday + 8) else sumQtyAt prodSales (monday + 1)
    some { product := pyStrip inv.name,
           mon := sumQtyAt prodSales (monday + 0),
           tue := sumQtyAt prodSales (monday + 1),
           wed := sumQtyAt prodSales (monday + 2),
           thu := sumQtyAt prodSales (monday + 3),
           fri := sumQtyAt prodSales (monday + 4),
           sat := sumQtyAt prodSales (monday + 5),
           stock := inv.stock, sec := inv.sec, minQty := inv.minQty,
           timing := pyStrip inv.timing,
           nextMon := nextMonQty, nextTue := nextTueQty }

/-- `build_weekly_data(sales_df, inventory_df, monday)` (schedule.py:244-304):
the weekly rows in inventory order, plus the names of unmatched products. -/
def buildWeeklyData (salesDf : List Sale) (inv : List InvRow) (monday : Int) :
    List Row × List String :=
  match inv with
  | [] => ([], [])
  | r :: rest =>
    let tail := buildWeeklyData salesDf rest monday
    match weeklyRowOf salesDf r monday with
    | some row => (row :: tail.1, tail.2)
    | none => (tail.1, pyStrip r.name :: tail.2)

/-! ## The claims' own definitions (for comparison with the code) -/

/-- The weekday demand profile as claim C2 words it: the ceiling of (total
historical quantity sold on weekday `w` within the trailing 28-calendar-day
window ending the day before the scheduling week begins) divided by (the
number of distinct calendar dates observed for that weekday in the window).
This definition follows the claim, not the source, and is compared against
the source's aggregation. -/
def claimWeekdayDemand (allSales : List Sale) (code : String) (weekStart : Int)
    (w : Int) : Int :=
  let window := allSales.filter fun s =>
    s.productCode = code ∧ weekStart - 28 ≤ s.saleDate ∧
      s.saleDate ≤ weekStart - 1 ∧ s.saleDate % 7 = w
  let total := (window.map fun s => s.quantity).sum
  let dates := ((window.map fun s => s.saleDate).dedup).length
  if dates = 0 then 0 else ((total + dates - 1) / dates)

/-- The 7-slot extended demand sequence of spec §4.2: Monday–Friday of the
planning week, then next Monday and next Tuesday. -/
def ext7 (r : Row) : Nat → Int
  | 0 => r.mon
  | 1 => r.tue
  | 2 => r.wed
  | 3 => r.thu
  | 4 => r.fri
  | 5 => r.nextMon
  | 6 => r.nextTue
  | _ => 0

/-- The largest shortfall magnitude over the window claim C5 describes: a
fixed window of 3 days starting at day `i`, clipped at the 7-slot horizon,
with safety floor 0 (the spec's default).  This definition follows the
claim, not the source. -/
def claimShortfall (r : Row) (i : Nat) (stock : Int) : Int :=
  ((List.range (min 3 (7 - i))).map fun k =>
    (((List.range (k + 1)).map fun j => ext7 r (i + j)).sum) - stock).foldl max 0

/-- The day-by-day simulation of spec §4.2 under claim C5's lookahead rule:
a day is flagged iff the 3-day window shows a positive shortfall; the event
quantity is `max(largest shortfall, minimum batch size)` and replenishes the
running stock immediately; today's projected sales are then subtracted. -/
def claimSimAux (r : Row) : List Nat → Int → List Nat
  | [], _ => []
  | i :: rest, stock =>
    let short := claimShortfall r i stock
    if 0 < short then
      i :: claimSimAux r rest (stock + max short r.minQty - ext7 r i)
    else
      claimSimAux r rest (stock - ext7 r i)

/-- The days claim C5's lookahead rule would flag. -/
def claimFlags (r : Row) : List Nat := claimSimAux r [0, 1, 2, 3, 4] r.stock

/-! ## Concrete inputs used to settle the claims

`Row` fields in order: product, mon, tue, wed, thu, fri, sat, stock, sec,
minQty, timing, nextMon, nextTue. -/

/-- Sales history with two Monday records for product "A" (day 0 is a
Monday, so days 21 and 28 are Mondays): 3 units on day 21, 5 on day 28. -/
def c2sales : List Sale := [⟨"A", 28, 5⟩, ⟨"A", 21, 3⟩]

/-- Product-catalog row for "A". -/
def c2inv : InvRow := ⟨"A", "A", 0, 0, "주야", 0⟩

/-- The weekly row the engine builds from `c2sales` for the sales week
starting day 28. -/
def c2row : Row := ⟨"A", 5, 0, 0, 0, 0, 0, 0, 0, 0, "주야", 5, 0⟩

/-- A product whose minimum batch (201) exceeds the slot ceiling 200, so
its events can never be placed. -/
def c3row : Row := ⟨"U", 1, 0, 0, 0, 0, 0, 0, 0, 201, "주야", 0, 0⟩

/-- The first-week event the engine derives from `c3row`. -/
def c3plan : Plan := ⟨"U", 1, 201, 0, "2일치 부족", false, "주야"⟩

/-- A product with minimum batch 0 and a Monday shortfall of 5. -/
def c4row : Row := ⟨"B", 5, 0, 0, 0, 0, 0, 0, 10, 0, "주야", 0, 0⟩

/-- A product with zero weekly sales. -/
def c4zrow : Row := ⟨"Z", 0, 0, 0, 0, 0, 0, 3, 10, 5, "주야", 0, 0⟩

/-- Spec §8 Scenario 1: inventory 10, demand 5 every weekday, minimum
batch 1, either shift. -/
def c5row : Row := ⟨"A", 5, 5, 5, 5, 5, 0, 10, 60, 1, "주야", 5, 5⟩

/-- A row whose three events get urgencies 80, 140, 80 at deadlines
1, 2, 3, so the urgency sort consumes the deadline-2 event first. -/
def c6row : Row := ⟨"F", 4, 3, 10, 0, 0, 0, 7, 1, 0, "주야", 0, 0⟩

/-- Two distinct products, both deadline-0 (the `(쿠)` rule), both placeable
on Monday. -/
def c7rowC : Row := ⟨"(쿠)C", 1, 0, 0, 0, 0, 0, 0, 1, 5, "주야", 0, 0⟩

/-- See `c7rowC`. -/
def c7rowD : Row := ⟨"(쿠)D", 1, 0, 0, 0, 0, 0, 0, 1, 5, "주야", 0, 0⟩

/-- An empty allocation state (for the placement-insensitivity witness). -/
def c7stA : SchedState := schedInit

/-- A state whose Monday day-shift holds an unrelated zero-quantity entry
"X" but the same running sums as `c7stA`. -/
def c7stB : SchedState :=
  { sched := fun d s => if d = 0 ∧ s = Shift.day then [("X", ⟨0, 7, "", 0⟩)] else [],
    dsum := fun _ _ => 0, dtime := fun _ _ => 0 }

/-- A day-only product with a Monday shortfall. -/
def c8row : Row := ⟨"E", 5, 0, 0, 0, 0, 0, 0, 10, 0, "주", 0, 0⟩

/-- A night-only product with a Monday shortfall. -/
def c8nrow : Row := ⟨"N", 5, 0, 0, 0, 0, 0, 0, 10, 0, "야", 0, 0⟩

/-- Two rows with the same product name but different per-unit seconds
(100 vs 200); both events land on Monday's day shift. -/
def c10r1 : Row := ⟨"(쿠)P", 1, 0, 0, 0, 0, 0, 0, 100, 100, "주야", 0, 0⟩

/-- See `c10r1`. -/
def c10r2 : Row := ⟨"(쿠)P", 1, 0, 0, 0, 0, 0, 0, 200, 88, "주야", 0, 0⟩

/-! ## Lemmas about the sorting and association-list helpers -/

theorem mem_insertLe {le : α → α → Bool} {x a : α} :
    ∀ {l : List α}, a ∈ insertLe le x l ↔ a = x ∨ a ∈ l := by
  intro l
  induction l with
  | nil => simp [insertLe]
  | cons h t ih =>
    simp only [insertLe]
    split
    · simp only [List.mem_cons, ih]
      tauto
    · simp

theorem mem_foldl_insertLe {le : α → α → Bool} {a : α} :
    ∀ {l acc : List α},
      a ∈ l.foldl (fun acc x => insertLe le x acc) acc ↔ a ∈ acc ∨ a ∈ l := by
  intro l
  induction l with
  | nil => simp
  | cons h t ih =>
    intro acc
    rw [List.foldl_cons, ih, mem_insertLe]
    simp only [List.mem_cons]
    tauto

theorem mem_stableSort {le : α → α → Bool} {a : α} {l : List α} :
    a ∈ stableSort le l ↔ a ∈ l := by
  simp [stableSort, mem_foldl_insertLe]

theorem pairwise_insertLe {le : α → α → Bool}
    (total : ∀ a b, le a b = true ∨ le b a = true)
    (trans : ∀ a b c, le a b = true → le b c = true → le a c = true)
    (x : α) :
    ∀ {l : List α}, l.Pairwise (fun a b => le a b = true) →
      (insertLe le x l).Pairwise (fun a b => le a b = true) := by
  intro l
  induction l with
  | nil => simp [insertLe]
  | cons h t ih =>
    intro hp
    rw [List.pairwise_cons] at hp
    simp only [insertLe]
    split
    · rename_i hle
      rw [List.pairwise_cons]
      refine ⟨?_, ih hp.2⟩
      intro b hb
      rcases mem_insertLe.mp hb with rfl | hbt
      · exact hle
      · exact hp.1 b hbt
    · rename_i hle
      have hxh : le x h = true := by
        rcases total h x with h1 | h1
        · exact absurd h1 hle
        · exact h1
      rw [List.pairwise_cons]
      constructor
      · intro b hb
        rcases List.mem_cons.mp hb with rfl | hbt
        · exact hxh
        · exact trans x h b hxh (hp.1 b hbt)
      · rw [List.pairwise_cons]
        exact ⟨hp.1, hp.2⟩

theorem pairwise_stableSort {le : α → α → Bool}
    (total : ∀ a b, le a b = true ∨ le b a = true)
    (trans : ∀ a b c, le a b = true → le b c = true → le a c = true)
    (l : List α) :
    (stableSort le l).Pairwise (fun a b => le a b = true) := by
  suffices h : ∀ (l acc : List α), acc.Pairwise (fun a b => le a b = true) →
      (l.foldl (fun acc x => insertLe le x acc) acc).Pairwise
        (fun a b => le a b = true) by
    exact h l [] (by simp)
  intro l
  induction l with
  | nil => intro acc h; simpa using h
  | cons x t ih =>
    intro acc h
    rw [List.foldl_cons]
    exact ih _ (pairwise_insertLe total trans x h)

theorem findEnt_cons {e : String × α} {t : List (String × α)} {p : String} :
    findEnt (e :: t) p = if e.1 == p then some e else findEnt t p := by
  unfold findEnt
  cases he : (e.1 == p) <;> simp [List.find?_cons, he]

theorem findEnt_some {l : List (String × α)} {p : String} {pe : String × α}
    (h : findEnt l p = some pe) : pe.1 = p ∧ pe ∈ l := by
  unfold findEnt at h
  have h1 := List.find?_some h
  have h2 := List.mem_of_find?_eq_some h
  exact ⟨by simpa using h1, h2⟩

theorem findEnt_none {l : List (String × α)} {p : String}
    (h : findEnt l p = none) : ∀ pe ∈ l, pe.1 ≠ p := by
  unfold findEnt at h
  rw [List.find?_eq_none] at h
  intro pe hpe
  have := h pe hpe
  simpa using this

theorem mem_setEntry {v : α} :
    ∀ {l : List (String × α)} {p : String} {pe : String × α},
      pe ∈ setEntry l p v → pe = (p, v) ∨ pe ∈ l := by
  intro l
  induction l with
  | nil => intro p pe h; simpa [setEntry] using h
  | cons e t ih =>
    intro p pe h
    obtain ⟨q, w⟩ := e
    simp only [setEntry] at h
    split at h
    · rcases List.mem_cons.mp h with rfl | hmem
      · exact Or.inl rfl
      · exact Or.inr (List.mem_cons_of_mem _ hmem)
    · rcases List.mem_cons.mp h with rfl | hmem
      · exact Or.inr (List.mem_cons_self _ _)
      · rcases ih hmem with h1 | h1
        · exact Or.inl h1
        · exact Or.inr (List.mem_cons_of_mem _ h1)

theorem map_sum_setEntry (f : String × α → Int) (v : α) :
    ∀ {l : List (String × α)} {p : String} {pe : String × α},
      findEnt l p = some pe →
      ((setEntry l p v).map f).sum = (l.map f).sum - f pe + f (p, v) := by
  intro l
  induction l with
  | nil => intro p pe h; simp [findEnt] at h
  | cons e t ih =>
    intro p pe h
    obtain ⟨q, w⟩ := e
    rw [findEnt_cons] at h
    simp only [setEntry]
    by_cases hq : ((q : String) == p) = true
    · rw [if_pos hq] at h
      cases h
      rw [if_pos hq]
      simp only [List.map_cons, List.sum_cons]
      ring
    · rw [if_neg hq] at h
      rw [if_neg hq]
      simp only [List.map_cons, List.sum_cons, ih h]
      ring

theorem slotQtySum_setEntry {l : List (String × Entry)} {p : String}
    {pe : String × Entry} (v : Entry) (h : findEnt l p = some pe) :
    slotQtySum (setEntry l p v) = slotQtySum l - pe.2.qty + v.qty := by
  simpa [slotQtySum] using map_sum_setEntry (fun pe => pe.2.qty) v h

theorem slotTimeSum_setEntry {l : List (String × Entry)} {p : String}
    {pe : String × Entry} (v : Entry) (h : findEnt l p = some pe) :
    slotTimeSum (setEntry l p v) =
      slotTimeSum l - pe.2.qty * pe.2.sec + v.qty * v.sec := by
  simpa [slotTimeSum] using map_sum_setEntry (fun pe => pe.2.qty * pe.2.sec) v h

theorem slotQtySum_append (l : List (String × Entry)) (p : String) (v : Entry) :
    slotQtySum (l ++ [(p, v)]) = slotQtySum l + v.qty := by
  simp [slotQtySum]

theorem slotTimeSum_append (l : List (String × Entry)) (p : String) (v : Entry) :
    slotTimeSum (l ++ [(p, v)]) = slotTimeSum l + v.qty * v.sec := by
  simp [slotTimeSum]

theorem findEnt_setEntry_self (v : α) :
    ∀ {l : List (String × α)} {p : String} {pe : String × α},
      findEnt l p = some pe → findEnt (setEntry l p v) p = some (p, v) := by
  intro l
  induction l with
  | nil => intro p pe h; simp [findEnt] at h
  | cons e t ih =>
    intro p pe h
    obtain ⟨q, w⟩ := e
    rw [findEnt_cons] at h
    simp only [setEntry]
    by_cases hq : ((q : String) == p) = true
    · rw [if_pos hq]
      rw [findEnt_cons]
      simp
    · rw [if_neg hq] at h
      rw [if_neg hq, findEnt_cons, if_neg hq]
      exact ih h

theorem findEnt_append_right_none (v : α) :
    ∀ {l : List (String × α)} {p : String},
      findEnt l p = none → findEnt (l ++ [(p, v)]) p = some (p, v) := by
  intro l
  induction l with
  | nil => intro p _; simp [findEnt]
  | cons e t ih =>
    intro p h
    rw [findEnt_cons] at h
    rw [List.cons_append, findEnt_cons]
    by_cases hq : (e.1 == p) = true
    · rw [if_pos hq] at h
      cases h
    · rw [if_neg hq] at h
      rw [if_neg hq]
      exact ih h

/-! ## Provenance of the production events -/

/-- A plan event consumed by the allocator always stems from a prepared
row: same product name, same per-unit seconds, the normalised timing of
that row, and a positive quantity. -/
def GoodPlan (rows : List Row) (pl : Plan) : Prop :=
  0 < pl.qty ∧ ∃ r ∈ prepRows rows,
    pl.product = r.product ∧ pl.sec = r.sec ∧ pl.timing = normTiming r.timing

theorem firstPassDay_plan {r : Row} {i : Nat} {stock : Int} {pl : Plan} {st' : Int}
    (h : firstPassDay r i stock = (some pl, st')) :
    pl.product = r.product ∧ pl.sec = r.sec ∧ pl.timing = normTiming r.timing ∧
      0 < pl.qty ∧ pl.nextWeek = false := by
  simp only [firstPassDay] at h
  split at h <;> split at h
  case isTrue.isFalse => simp at h
  case isFalse.isFalse => simp at h
  all_goals
    rename_i hcond
    simp only [Prod.mk.injEq, Option.some.injEq] at h
    obtain ⟨h1, -⟩ := h
    subst h1
    refine ⟨rfl, rfl, rfl, ?_, rfl⟩
    show (0 : Int) < _
    rcases hcond with h2 | h2 <;> simp only [max_def] <;> (repeat' split) <;> omega

theorem additionalPassDay_plan {r : Row} {i : Nat} {stock : Int} {pl : Plan} {st' : Int}
    (h : additionalPassDay r i stock = (some pl, st')) :
    pl.product = r.product ∧ pl.sec = r.sec ∧ pl.timing = normTiming r.timing ∧
      0 < pl.qty ∧ pl.nextWeek = true := by
  simp only [additionalPassDay] at h
  split at h <;> split at h
  case isTrue.isFalse => simp at h
  case isFalse.isFalse => simp at h
  all_goals
    rename_i hcond
    simp only [Prod.mk.injEq, Option.some.injEq] at h
    obtain ⟨h1, -⟩ := h
    subst h1
    refine ⟨rfl, rfl, rfl, ?_, rfl⟩
    show (0 : Int) < _
    rcases hcond with h2 | h2 <;> simp only [max_def] <;> (repeat' split) <;> omega

theorem firstPassAux_plan {r : Row} :
    ∀ {idx : List Nat} {stock : Int} {pl : Plan}, pl ∈ firstPassAux r idx stock →
      pl.product = r.product ∧ pl.sec = r.sec ∧ pl.timing = normTiming r.timing ∧
        0 < pl.qty ∧ pl.nextWeek = false := by
  intro idx
  induction idx with
  | nil => intro stock pl h; simp [firstPassAux] at h
  | cons i rest ih =>
    intro stock pl h
    rw [firstPassAux] at h
    split at h
    · rename_i heq
      rcases List.mem_cons.mp h with rfl | hmem
      · exact firstPassDay_plan heq
      · exact ih hmem
    · exact ih h

theorem additionalAux_plan {r : Row} :
    ∀ {idx : List Nat} {stock : Int} {pl : Plan}, pl ∈ additionalAux r idx stock →
      pl.product = r.product ∧ pl.sec = r.sec ∧ pl.timing = normTiming r.timing ∧
        0 < pl.qty ∧ pl.nextWeek = true := by
  intro idx
  induction idx with
  | nil => intro stock pl h; simp [additionalAux] at h
  | cons i rest ih =>
    intro stock pl h
    rw [additionalAux] at h
    split at h
    · rename_i heq
      rcases List.mem_cons.mp h with rfl | hmem
      · exact additionalPassDay_plan heq
      · exact ih hmem
    · exact ih h

theorem plansOfRows_mem {g : Row → List Plan} :
    ∀ {rows : List Row} {pl : Plan}, pl ∈ plansOfRows g rows → ∃ r ∈ rows, pl ∈ g r := by
  intro rows
  induction rows with
  | nil => intro pl h; simp [plansOfRows] at h
  | cons r rest ih =>
    intro pl h
    rw [plansOfRows] at h
    rcases List.mem_append.mp h with h1 | h1
    · exact ⟨r, List.mem_cons_self _ _, h1⟩
    · obtain ⟨r', hr', hpl⟩ := ih h1
      exact ⟨r', List.mem_cons_of_mem _ hr', hpl⟩

theorem productionPlanOf_good {rows : List Row} {pl : Plan}
    (h : pl ∈ productionPlanOf rows) : GoodPlan rows pl ∧ pl.nextWeek = false := by
  obtain ⟨r, hr, hpl⟩ := plansOfRows_mem h
  obtain ⟨h1, h2, h3, h4, h5⟩ := firstPassAux_plan hpl
  exact ⟨⟨h4, r, hr, h1, h2, h3⟩, h5⟩

theorem additionalPlanOf_good {rows : List Row} {pl : Plan}
    (h : pl ∈ additionalPlanOf rows) : GoodPlan rows pl ∧ pl.nextWeek = true := by
  obtain ⟨r, hr, hpl⟩ := plansOfRows_mem h
  obtain ⟨h1, h2, h3, h4, h5⟩ := additionalAux_plan hpl
  exact ⟨⟨h4, r, hr, h1, h2, h3⟩, h5⟩

theorem firstWeekSortedOf_good {rows : List Row} {pl : Plan}
    (h : pl ∈ firstWeekSortedOf rows) : GoodPlan rows pl := by
  have h1 : pl ∈ firstWeekPlanOf rows := mem_stableSort.mp h
  have h2 : pl ∈ fullPlanOf rows := (List.mem_filter.mp h1).1
  rcases List.mem_append.mp h2 with h3 | h3
  · exact (productionPlanOf_good h3).1
  · exact (additionalPlanOf_good (mem_stableSort.mp h3)).1

theorem nextWeekPlanOf_good {rows : List Row} {pl : Plan}
    (h : pl ∈ nextWeekPlanOf rows) : GoodPlan rows pl := by
  have h2 : pl ∈ fullPlanOf rows := (List.mem_filter.mp h).1
  rcases List.mem_append.mp h2 with h3 | h3
  · exact (productionPlanOf_good h3).1
  · exact (additionalPlanOf_good (mem_stableSort.mp h3)).1

/-! ## Shift-eligibility facts -/

theorem allowedShifts_cases (t : String) :
    getAllowedShifts t = [Shift.day] ∨ getAllowedShifts t = [Shift.night] ∨
      getAllowedShifts t = [Shift.day, Shift.night] := by
  simp only [getAllowedShifts]
  repeat' split
  all_goals tauto

theorem allowedShifts_len2 {t : String}
    (h : (getAllowedShifts t).length = 2) :
    getAllowedShifts t = [Shift.day, Shift.night] := by
  rcases allowedShifts_cases t with h1 | h1 | h1 <;> rw [h1] at h ⊢ <;> simp_all

theorem prepRows_mem {rows : List Row} {r' : Row} (h : r' ∈ prepRows rows) :
    ∃ r ∈ rows, r' = { r with timing := pyStrip r.timing } ∧ 0 < r.weeklySales := by
  unfold prepRows at h
  obtain ⟨r, hr, rfl⟩ := List.mem_map.mp h
  have hm := List.mem_filter.mp hr
  refine ⟨r, hm.1, rfl, ?_⟩
  simpa using hm.2

/-- Every shift is allowed when the allowed-shift list has two elements. -/
theorem mem_allowed_of_len2 {t : String}
    (hlen : (getAllowedShifts t).length = 2) (sh : Shift) :
    sh ∈ getAllowedShifts t := by
  rw [allowedShifts_len2 hlen]
  cases sh <;> simp

/-! ## The allocator's invariants -/

/-- An entry of product `p` in shift `s` is justified by some prepared row:
that row carries the product name and allows the shift. -/
def EntryProv (rows : List Row) (p : String) (s : Shift) : Prop :=
  ∃ r ∈ prepRows rows, r.product = p ∧ s ∈ getAllowedShifts (normTiming r.timing)

/-- The master invariant of the final allocation state: the running
`daily_sum` equals the slot's quantity sum and respects `DAILY_LIMIT`, the
running `daily_time` respects `WORK_HOURS`, and every entry has positive
quantity and a justifying row. -/
def MasterInv (rows : List Row) (st : SchedState) : Prop :=
  ∀ d s, st.dsum d s = slotQtySum (st.sched d s) ∧
    st.dsum d s ≤ DAILY_LIMIT ∧ st.dtime d s ≤ WORK_HOURS ∧
    ∀ pe ∈ st.sched d s, 0 < pe.2.qty ∧ EntryProv rows pe.1 s

theorem masterInv_init (rows : List Row) : MasterInv rows schedInit := by
  intro d s
  refine ⟨by simp [schedInit, slotQtySum], ?_, ?_, by simp [schedInit]⟩
  · simp [schedInit, DAILY_LIMIT]
  · simp [schedInit, WORK_HOURS]

theorem trySlot_master {rows : List Row} {pl : Plan} (hgood : GoodPlan rows pl)
    {st : SchedState} {day : Nat} {sh : Shift} {urg : Int} {st' : SchedState}
    (hsh : sh ∈ getAllowedShifts pl.timing)
    (h : trySlot st day sh pl.product pl.qty pl.sec pl.reason urg = some st')
    (hInv : MasterInv rows st) : MasterInv rows st' := by
  obtain ⟨hqty, r, hr, hprod, hsec, htim⟩ := hgood
  have hprov : EntryProv rows pl.product sh := ⟨r, hr, hprod.symm, htim ▸ hsh⟩
  simp only [trySlot] at h
  split at h
  · rename_i pe hfe
    split at h
    · rename_i hcheck
      injection h with h1
      subst h1
      obtain ⟨hpe1, hpemem⟩ := findEnt_some hfe
      intro d s
      by_cases hds : d = day ∧ s = sh
      · obtain ⟨rfl, rfl⟩ := hds
        simp only [eq_self_iff_true, and_self, if_true]
        obtain ⟨hsum, -, -, hent⟩ := hInv d s
        refine ⟨?_, hcheck.1, hcheck.2, ?_⟩
        · rw [slotQtySum_setEntry _ hfe]
          simp only []
          omega
        · intro pe' hpe'
          rcases mem_setEntry hpe' with rfl | hold
          · have := (hent pe hpemem).1
            exact ⟨by positivity, hprov⟩
          · exact hent pe' hold
      · simp only [if_neg hds]
        exact hInv d s
    · exact Option.noConfusion h
  · rename_i hfe
    split at h
    · rename_i hcheck
      injection h with h1
      subst h1
      intro d s
      by_cases hds : d = day ∧ s = sh
      · obtain ⟨rfl, rfl⟩ := hds
        simp only [eq_self_iff_true, and_self, if_true]
        obtain ⟨hsum, -, -, hent⟩ := hInv d s
        refine ⟨?_, hcheck.1, hcheck.2, ?_⟩
        · rw [slotQtySum_append]
          simp only []
          omega
        · intro pe' hpe'
          rcases List.mem_append.mp hpe' with hold | hnew
          · exact hent pe' hold
          · rcases List.mem_singleton.mp hnew with rfl
            exact ⟨hqty, hprov⟩
      · simp only [if_neg hds]
        exact hInv d s
    · exact Option.noConfusion h

/-! Generic preservation of a state predicate through the placement loops. -/

theorem tryShifts_pres (P : SchedState → Prop) {day : Nat} {p : String}
    {qty sec : Int} {reason : String} {urg : Int} {A : List Shift}
    (hstep : ∀ st sh st', sh ∈ A →
      trySlot st day sh p qty sec reason urg = some st' → P st → P st') :
    ∀ {pref : List Shift}, (∀ sh ∈ pref, sh ∈ A) → ∀ {st st' : SchedState}, P st →
      tryShifts st day p qty sec reason urg pref = some st' → P st' := by
  intro pref
  induction pref with
  | nil => intro _ st st' _ h; simp [tryShifts] at h
  | cons sh rest ih =>
    intro hsub st st' hP h
    rw [tryShifts] at h
    split at h
    · rename_i st1 heq
      injection h with h1
      subst h1
      exact hstep st sh _ (hsub sh (List.mem_cons_self _ _)) heq hP
    · exact ih (fun s hs => hsub s (List.mem_cons_of_mem _ hs)) hP h

theorem fwDays_pres (P : SchedState → Prop) (pl : Plan)
    (hstep : ∀ st day sh urg st', sh ∈ getAllowedShifts pl.timing →
      trySlot st day sh pl.product pl.qty pl.sec pl.reason urg = some st' →
      P st → P st') :
    ∀ (days : List Nat) (st : SchedState), P st → P (fwDays pl st days) := by
  intro days
  induction days with
  | nil => intro st h; simpa [fwDays] using h
  | cons day rest ih =>
    intro st hP
    rw [fwDays]
    split
    · rename_i st1 heq
      have hsub : ∀ sh ∈ (if (getAllowedShifts pl.timing).length = 2 then
          (if 30 ≤ getUrgency pl.reason pl.product ((pl.deadline : Int) - (day : Int)) false
           then [Shift.day, Shift.night] else [Shift.night, Shift.day])
          else getAllowedShifts pl.timing), sh ∈ getAllowedShifts pl.timing := by
        split
        · rename_i hlen
          intro sh _
          exact mem_allowed_of_len2 hlen sh
        · intro sh hs
          exact hs
      exact tryShifts_pres P (fun st0 sh st0' hsh h hP0 => hstep st0 day sh _ st0' hsh h hP0)
        hsub hP heq
    · exact ih st hP

theorem fwPlacePlan_pres (P : SchedState → Prop) (pl : Plan)
    (hstep : ∀ st day sh urg st', sh ∈ getAllowedShifts pl.timing →
      trySlot st day sh pl.product pl.qty pl.sec pl.reason urg = some st' →
      P st → P st') :
    ∀ (st : SchedState), P st → P (fwPlacePlan st pl) := by
  intro st hP
  exact fwDays_pres P pl hstep _ st hP

theorem nwDays_pres (P : SchedState → Prop) (pl : Plan)
    (hstep : ∀ st day sh urg st', sh ∈ getAllowedShifts pl.timing →
      trySlot st day sh pl.product pl.qty pl.sec pl.reason urg = some st' →
      P st → P st') :
    ∀ (days : List Nat) (st : SchedState), P st → P (nwDays pl st days) := by
  intro days
  induction days with
  | nil => intro st h; simpa [nwDays] using h
  | cons day rest ih =>
    intro st hP
    rw [nwDays]
    split
    · rename_i st1 heq
      have hsub : ∀ sh ∈ (if (getAllowedShifts pl.timing).length = 2 then
          (if st.dsum day Shift.day ≤ st.dsum day Shift.night
           then [Shift.day, Shift.night] else [Shift.night, Shift.day])
          else getAllowedShifts pl.timing), sh ∈ getAllowedShifts pl.timing := by
        split
        · rename_i hlen
          intro sh _
          exact mem_allowed_of_len2 hlen sh
        · intro sh hs
          exact hs
      exact tryShifts_pres P (fun st0 sh st0' hsh h hP0 => hstep st0 day sh _ st0' hsh h hP0)
        hsub hP heq
    · exact ih st hP

theorem nwPlacePlan_pres (P : SchedState → Prop) (pl : Plan)
    (hstep : ∀ st day sh urg st', sh ∈ getAllowedShifts pl.timing →
      trySlot st day sh pl.product pl.qty pl.sec pl.reason urg = some st' →
      P st → P st') :
    ∀ (st : SchedState), P st → P (nwPlacePlan st pl) := by
  intro st hP
  exact nwDays_pres P pl hstep _ st hP

theorem foldl_place_pres (P : SchedState → Prop)
    (place : SchedState → Plan → SchedState) :
    ∀ (plans : List Plan), (∀ pl ∈ plans, ∀ st, P st → P (place st pl)) →
      ∀ st, P st → P (plans.foldl place st) := by
  intro plans
  induction plans with
  | nil => intro _ st h; simpa using h
  | cons pl rest ih =>
    intro hpl st hP
    rw [List.foldl_cons]
    exact ih (fun q hq => hpl q (List.mem_cons_of_mem _ hq)) _
      (hpl pl (List.mem_cons_self _ _) st hP)

/-- The master invariant holds for the output of the engine. -/
theorem masterInv_create (rows : List Row) :
    MasterInv rows (createScheduleFromWeekly rows) := by
  unfold createScheduleFromWeekly
  apply foldl_place_pres (MasterInv rows) nwPlacePlan _
    (fun pl hpl st hP =>
      nwPlacePlan_pres _ pl
        (fun st0 day sh urg st0' hsh h hP0 =>
          trySlot_master (nextWeekPlanOf_good hpl) hsh h hP0) st hP)
  apply foldl_place_pres (MasterInv rows) fwPlacePlan _
    (fun pl hpl st hP =>
      fwPlacePlan_pres _ pl
        (fun st0 day sh urg st0' hsh h hP0 =>
          trySlot_master (firstWeekSortedOf_good hpl) hsh h hP0) st hP)
  exact masterInv_init rows

/-- If `g'` agrees with `g` except at one point of a duplicate-free list,
where it is `q` larger, the mapped sum grows by `q`. -/
theorem map_sum_update (g g' : Nat → Int) (q : Int) :
    ∀ (L : List Nat) (d₀ : Nat), L.Nodup → d₀ ∈ L →
      (∀ d, d ≠ d₀ → g' d = g d) → g' d₀ = g d₀ + q →
      (L.map g').sum = (L.map g).sum + q := by
  intro L
  induction L with
  | nil => intro d₀ _ h; simp at h
  | cons a t ih =>
    intro d₀ hnd hmem hframe hadd
    rw [List.nodup_cons] at hnd
    simp only [List.map_cons, List.sum_cons]
    rcases List.mem_cons.mp hmem with rfl | hmem'
    · have ht : t.map g' = t.map g := by
        apply List.map_congr_left
        intro d hd
        exact hframe d (fun hdd => hnd.1 (hdd ▸ hd))
      rw [ht, hadd]
      ring
    · rw [hframe a (fun haa => hnd.1 (haa ▸ hmem')), ih d₀ hnd.2 hmem' hframe hadd]
      ring

/-! ## The conditional time invariant

The allocator's running `daily_time` subtracts an old entry's contribution
with the *current* event's per-unit seconds (schedule.py:408, 527, 586), so
it coincides with the slot's true time sum only when each product name
carries a single per-unit-seconds value across the input rows. -/

/-- Each entry's recorded seconds is the product's unique value `f`, and
`daily_time` is the slot's true time sum. -/
def TimeInv (f : String → Int) (st : SchedState) : Prop :=
  ∀ d s, st.dtime d s = slotTimeSum (st.sched d s) ∧
    ∀ pe ∈ st.sched d s, pe.2.sec = f pe.1

theorem timeInv_init (f : String → Int) : TimeInv f schedInit := by
  intro d s
  exact ⟨by simp [schedInit, slotTimeSum], by simp [schedInit]⟩

theorem trySlot_time {f : String → Int} {pl : Plan} (hsec : pl.sec = f pl.product)
    {st : SchedState} {day : Nat} {sh : Shift} {urg : Int} {st' : SchedState}
    (h : trySlot st day sh pl.product pl.qty pl.sec pl.reason urg = some st')
    (hInv : TimeInv f st) : TimeInv f st' := by
  simp only [trySlot] at h
  split at h
  · rename_i pe hfe
    split at h
    · injection h with h1
      subst h1
      obtain ⟨hpe1, hpemem⟩ := findEnt_some hfe
      intro d s
      by_cases hds : d = day ∧ s = sh
      · obtain ⟨rfl, rfl⟩ := hds
        simp only [eq_self_iff_true, and_self, if_true]
        obtain ⟨htime, hsecs⟩ := hInv d s
        have hps : pe.2.sec = pl.sec := by
          rw [hsecs pe hpemem, hpe1, hsec]
        constructor
        · rw [slotTimeSum_setEntry _ hfe, htime, hps]
        · intro pe' hpe'
          rcases mem_setEntry hpe' with rfl | hold
          · simpa using hsec
          · exact hsecs pe' hold
      · simp only [if_neg hds]
        exact hInv d s
    · exact Option.noConfusion h
  · split at h
    · injection h with h1
      subst h1
      intro d s
      by_cases hds : d = day ∧ s = sh
      · obtain ⟨rfl, rfl⟩ := hds
        simp only [eq_self_iff_true, and_self, if_true]
        obtain ⟨htime, hsecs⟩ := hInv d s
        constructor
        · rw [slotTimeSum_append, htime]
        · intro pe' hpe'
          rcases List.mem_append.mp hpe' with hold | hnew
          · exact hsecs pe' hold
          · rcases List.mem_singleton.mp hnew with rfl
            simpa using hsec
      · simp only [if_neg hds]
        exact hInv d s
    · exact Option.noConfusion h

/-- Under the per-product-seconds hypothesis, every consumed plan carries
`f` of its product. -/
theorem goodPlan_sec {rows : List Row} {f : String → Int} {pl : Plan}
    (hf : ∀ r ∈ rows, r.sec = f r.product) (hgood : GoodPlan rows pl) :
    pl.sec = f pl.product := by
  obtain ⟨-, r', hr', hprod, hsec, -⟩ := hgood
  obtain ⟨r, hr, rfl, -⟩ := prepRows_mem hr'
  rw [hsec, hprod]
  exact hf r hr

theorem timeInv_create (rows : List Row) (f : String → Int)
    (hf : ∀ r ∈ rows, r.sec = f r.product) :
    TimeInv f (createScheduleFromWeekly rows) := by
  unfold createScheduleFromWeekly
  apply foldl_place_pres (TimeInv f) nwPlacePlan _
    (fun pl hpl st hP =>
      nwPlacePlan_pres _ pl
        (fun st0 day sh urg st0' hsh h hP0 =>
          trySlot_time (goodPlan_sec hf (nextWeekPlanOf_good hpl)) h hP0) st hP)
  apply foldl_place_pres (TimeInv f) fwPlacePlan _
    (fun pl hpl st hP =>
      fwPlacePlan_pres _ pl
        (fun st0 day sh urg st0' hsh h hP0 =>
          trySlot_time (goodPlan_sec hf (firstWeekSortedOf_good hpl)) h hP0) st hP)
  exact timeInv_init f

/-! ## Atomicity of one placement -/

/-- A successful `trySlot` changes exactly the chosen slot, adding the whole
event quantity there (both to the slot's sum and to the product's entry). -/
theorem trySlot_atomic {st : SchedState} {day : Nat} {sh : Shift} {p : String}
    {qty sec : Int} {reason : String} {urg : Int} {st' : SchedState}
    (h : trySlot st day sh p qty sec reason urg = some st') :
    (∀ d s, ¬(d = day ∧ s = sh) → st'.sched d s = st.sched d s) ∧
    slotQtySum (st'.sched day sh) = slotQtySum (st.sched day sh) + qty ∧
    qtyIn (st'.sched day sh) p = qtyIn (st.sched day sh) p + qty := by
  simp only [trySlot] at h
  split at h
  · rename_i pe hfe
    split at h
    · injection h with h1
      subst h1
      refine ⟨fun d s hds => by simp only [if_neg hds], ?_, ?_⟩
      · simp only [eq_self_iff_true, and_self, if_true]
        rw [slotQtySum_setEntry _ hfe]
        simp only []
        ring
      · simp only [eq_self_iff_true, and_self, if_true]
        unfold qtyIn
        rw [findEnt_setEntry_self _ hfe, hfe]
    · exact Option.noConfusion h
  · rename_i hfe
    split at h
    · injection h with h1
      subst h1
      refine ⟨fun d s hds => by simp only [if_neg hds], ?_, ?_⟩
      · simp only [eq_self_iff_true, and_self, if_true]
        rw [slotQtySum_append]
      · simp only [eq_self_iff_true, and_self, if_true]
        unfold qtyIn
        rw [findEnt_append_right_none _ hfe, hfe]
        simp only []
        ring
    · exact Option.noConfusion h

/-- A successful `tryShifts` run places in one of the offered shifts. -/
theorem tryShifts_atomic {st : SchedState} {day : Nat} {p : String}
    {qty sec : Int} {reason : String} {urg : Int} :
    ∀ {pref : List Shift} {st' : SchedState},
      tryShifts st day p qty sec reason urg pref = some st' →
      ∃ sh, (∀ d s, ¬(d = day ∧ s = sh) → st'.sched d s = st.sched d s) ∧
        slotQtySum (st'.sched day sh) = slotQtySum (st.sched day sh) + qty ∧
        qtyIn (st'.sched day sh) p = qtyIn (st.sched day sh) p + qty := by
  intro pref
  induction pref with
  | nil => intro st' h; simp [tryShifts] at h
  | cons sh rest ih =>
    intro st' h
    rw [tryShifts] at h
    split at h
    · rename_i st1 heq
      injection h with h1
      subst h1
      exact ⟨sh, trySlot_atomic heq⟩
    · exact ih h

/-- The day loop of the first-week placement either leaves the state
unchanged or places the whole event on one of the offered days. -/
theorem fwDays_atomic (pl : Plan) :
    ∀ (days : List Nat) (st : SchedState),
      fwDays pl st days = st ∨ ∃ day ∈ days, ∃ sh,
        (∀ d s, ¬(d = day ∧ s = sh) → (fwDays pl st days).sched d s = st.sched d s) ∧
        slotQtySum ((fwDays pl st days).sched day sh) =
          slotQtySum (st.sched day sh) + pl.qty ∧
        qtyIn ((fwDays pl st days).sched day sh) pl.product =
          qtyIn (st.sched day sh) pl.product + pl.qty := by
  intro days
  induction days with
  | nil => intro st; left; rw [fwDays]
  | cons day rest ih =>
    intro st
    rw [fwDays]
    split
    · rename_i st1 heq
      obtain ⟨sh, hfr, hsum, hq⟩ := tryShifts_atomic heq
      exact Or.inr ⟨day, List.mem_cons_self _ _, sh, hfr, hsum, hq⟩
    · rcases ih st with h1 | ⟨d0, hd0, sh, hfr, hsum, hq⟩
      · exact Or.inl h1
      · exact Or.inr ⟨d0, List.mem_cons_of_mem _ hd0, sh, hfr, hsum, hq⟩

/-- Same for the next-week day loop. -/
theorem nwDays_atomic (pl : Plan) :
    ∀ (days : List Nat) (st : SchedState),
      nwDays pl st days = st ∨ ∃ day ∈ days, ∃ sh,
        (∀ d s, ¬(d = day ∧ s = sh) → (nwDays pl st days).sched d s = st.sched d s) ∧
        slotQtySum ((nwDays pl st days).sched day sh) =
          slotQtySum (st.sched day sh) + pl.qty ∧
        qtyIn ((nwDays pl st days).sched day sh) pl.product =
          qtyIn (st.sched day sh) pl.product + pl.qty := by
  intro days
  induction days with
  | nil => intro st; left; rw [nwDays]
  | cons day rest ih =>
    intro st
    rw [nwDays]
    split
    · rename_i st1 heq
      obtain ⟨sh, hfr, hsum, hq⟩ := tryShifts_atomic heq
      exact Or.inr ⟨day, List.mem_cons_self _ _, sh, hfr, hsum, hq⟩
    · rcases ih st with h1 | ⟨d0, hd0, sh, hfr, hsum, hq⟩
      · exact Or.inl h1
      · exact Or.inr ⟨d0, List.mem_cons_of_mem _ hd0, sh, hfr, hsum, hq⟩

/-- Candidate days of a placement never exceed the event's deadline. -/
theorem mem_sorted_range_le {le : Nat → Nat → Bool} {day n : Nat}
    (h : day ∈ stableSort le (List.range (n + 1))) : day ≤ n := by
  have := List.mem_range.mp (mem_stableSort.mp h)
  omega

/-- `fwPlacePlan` places atomically: nothing at all, or the whole quantity
into a single (day, shift) slot with the day at most the deadline. -/
theorem fwPlacePlan_cases (st : SchedState) (pl : Plan) :
    fwPlacePlan st pl = st ∨ ∃ day sh, day ≤ pl.deadline ∧
      (∀ d s, ¬(d = day ∧ s = sh) → (fwPlacePlan st pl).sched d s = st.sched d s) ∧
      slotQtySum ((fwPlacePlan st pl).sched day sh) =
        slotQtySum (st.sched day sh) + pl.qty ∧
      qtyIn ((fwPlacePlan st pl).sched day sh) pl.product =
        qtyIn (st.sched day sh) pl.product + pl.qty := by
  unfold fwPlacePlan
  rcases fwDays_atomic pl
      (stableSort (fun a b => decide (fwLoad st a ≤ fwLoad st b))
        (List.range (pl.deadline + 1))) st with h1 | ⟨day, hday, sh, hfr, hsum, hq⟩
  · exact Or.inl h1
  · exact Or.inr ⟨day, sh, mem_sorted_range_le hday, hfr, hsum, hq⟩

/-- Same for `nwPlacePlan`. -/
theorem nwPlacePlan_cases (st : SchedState) (pl : Plan) :
    nwPlacePlan st pl = st ∨ ∃ day sh, day ≤ pl.deadline ∧
      (∀ d s, ¬(d = day ∧ s = sh) → (nwPlacePlan st pl).sched d s = st.sched d s) ∧
      slotQtySum ((nwPlacePlan st pl).sched day sh) =
        slotQtySum (st.sched day sh) + pl.qty ∧
      qtyIn ((nwPlacePlan st pl).sched day sh) pl.product =
        qtyIn (st.sched day sh) pl.product + pl.qty := by
  unfold nwPlacePlan
  rcases nwDays_atomic pl
      (stableSort (fun a b => decide (nwScore st a ≤ nwScore st b))
        (List.range (pl.deadline + 1))) st with h1 | ⟨day, hday, sh, hfr, hsum, hq⟩
  · exact Or.inl h1
  · exact Or.inr ⟨day, sh, mem_sorted_range_le hday, hfr, hsum, hq⟩

/-- One atomic placement on a day `≤ 4` raises the week's total by the
event quantity. -/
theorem totalPlacedQty_update {st st' : SchedState} {day : Nat} {sh : Shift} {q : Int}
    (hday : day ≤ 4)
    (hfr : ∀ d s, ¬(d = day ∧ s = sh) → st'.sched d s = st.sched d s)
    (hsum : slotQtySum (st'.sched day sh) = slotQtySum (st.sched day sh) + q) :
    totalPlacedQty st' = totalPlacedQty st + q := by
  unfold totalPlacedQty
  apply map_sum_update _ _ q _ day (by decide) (by simp; omega)
  · intro d hd
    rw [hfr d Shift.day (fun hc => hd hc.1), hfr d Shift.night (fun hc => hd hc.1)]
  · cases sh
    · rw [hsum, hfr day Shift.night (by simp)]
      ring
    · rw [hsum, hfr day Shift.day (by simp)]
      ring

/-! ## Order of event consumption -/

theorem fwSortLe_total (a b : Plan) : fwSortLe a b = true ∨ fwSortLe b a = true := by
  unfold fwSortLe
  simp only [decide_eq_true_eq]
  exact le_total _ _

theorem fwSortLe_trans (a b c : Plan) (h1 : fwSortLe a b = true)
    (h2 : fwSortLe b c = true) : fwSortLe a c = true := by
  unfold fwSortLe at *
  simp only [decide_eq_true_eq] at *
  exact le_trans h2 h1

theorem addPlanLe_total (a b : Plan) : addPlanLe a b = true ∨ addPlanLe b a = true := by
  unfold addPlanLe
  simp only [Bool.or_eq_true, Bool.and_eq_true, decide_eq_true_eq]
  omega

theorem addPlanLe_trans (a b c : Plan) (h1 : addPlanLe a b = true)
    (h2 : addPlanLe b c = true) : addPlanLe a c = true := by
  unfold addPlanLe at *
  simp only [Bool.or_eq_true, Bool.and_eq_true, decide_eq_true_eq] at *
  omega

/-- The first-week share of the combined plan list is exactly the
first-pass plan, in order. -/
theorem firstWeekPlanOf_eq (rows : List Row) :
    firstWeekPlanOf rows = productionPlanOf rows := by
  unfold firstWeekPlanOf fullPlanOf
  rw [List.filter_append]
  have h1 : (productionPlanOf rows).filter (fun pl => !pl.nextWeek) =
      productionPlanOf rows := by
    rw [List.filter_eq_self]
    intro pl hpl
    simp [(productionPlanOf_good hpl).2]
  have h2 : (additionalSortedOf rows).filter (fun pl => !pl.nextWeek) = [] := by
    rw [List.filter_eq_nil_iff]
    intro pl hpl
    simp [(additionalPlanOf_good (mem_stableSort.mp hpl)).2]
  rw [h1, h2, List.append_nil]

/-- The next-week share of the combined plan list is exactly the sorted
additional plan, in order. -/
theorem nextWeekPlanOf_eq (rows : List Row) :
    nextWeekPlanOf rows = additionalSortedOf rows := by
  unfold nextWeekPlanOf fullPlanOf
  rw [List.filter_append]
  have h1 : (productionPlanOf rows).filter (fun pl => pl.nextWeek) = [] := by
    rw [List.filter_eq_nil_iff]
    intro pl hpl
    simp [(productionPlanOf_good hpl).2]
  have h2 : (additionalSortedOf rows).filter (fun pl => pl.nextWeek) =
      additionalSortedOf rows := by
    rw [List.filter_eq_self]
    intro pl hpl
    simp [(additionalPlanOf_good (mem_stableSort.mp hpl)).2]
  rw [h1, h2, List.nil_append]

/-- Field-wise form of `prepRows_mem`. -/
theorem prepRows_mem_fields {rows : List Row} {r' : Row} (h : r' ∈ prepRows rows) :
    ∃ r ∈ rows, r'.product = r.product ∧ r'.timing = pyStrip r.timing ∧
      0 < r.weeklySales := by
  obtain ⟨r, hr, rfl, hw⟩ := prepRows_mem h
  exact ⟨r, hr, rfl, rfl, hw⟩

/-- Two successive filters collapse into one conjunction filter. -/
theorem filter_filter_eq {β : Type} (p q : β → Bool) :
    ∀ l : List β, (l.filter p).filter q = l.filter fun a => p a && q a := by
  intro l
  induction l with
  | nil => rfl
  | cons a t ih =>
    by_cases hp : p a <;> by_cases hq : q a <;>
      simp [List.filter_cons, hp, hq, ih]

/-- The quantity the engine attributes to an in-week date is the total over
the *full* sales history on that single date: the week filter of
`load_sales_for_week` is transparent for dates inside the week. -/
theorem sumQtyAt_load (allSales : List Sale) (c : String) (monday w : Int)
    (h0 : 0 ≤ w) (h5 : w ≤ 5) :
    sumQtyAt ((loadSalesForWeek allSales monday).filter
        fun s => pyStrip s.productCode == c) (monday + w) =
      ((allSales.filter fun s =>
          pyStrip s.productCode == c && s.saleDate == monday + w).map
        fun s => s.quantity).sum := by
  unfold sumQtyAt loadSalesForWeek
  rw [filter_filter_eq, filter_filter_eq]
  have hfil : ∀ s ∈ allSales,
      (decide (monday ≤ s.saleDate ∧ s.saleDate ≤ monday + 5) &&
          ((pyStrip s.productCode == c) && decide (s.saleDate = monday + w))) =
        ((pyStrip s.productCode == c) && (s.saleDate == monday + w)) := by
    intro s _
    by_cases hd : s.saleDate = monday + w
    · have h1 : monday ≤ s.saleDate := by omega
      have h2 : s.saleDate ≤ monday + 5 := by omega
      simp only [hd]
      simp
      omega
    · simp [hd]
  rw [List.filter_congr hfil]

/-- Entries outside the exempt set sum to at most the full slot sum when
all quantities are nonnegative. -/
theorem slotQtySumNonExempt_le (exempt : String → Bool) :
    ∀ {l : List (String × Entry)}, (∀ pe ∈ l, 0 ≤ pe.2.qty) →
      slotQtySumNonExempt exempt l ≤ slotQtySum l := by
  intro l
  induction l with
  | nil => intro _; simp [slotQtySumNonExempt, slotQtySum]
  | cons pe t ih =>
    intro hpos
    have ht := ih (fun x hx => hpos x (List.mem_cons_of_mem _ hx))
    have hh := hpos pe (List.mem_cons_self _ _)
    unfold slotQtySumNonExempt slotQtySum at *
    rw [List.filter_cons]
    split
    · simp only [List.map_cons, List.sum_cons]
      omega
    · simp only [List.map_cons, List.sum_cons]
      omega

/-! ## The claims -/

/-- C1: for every input weekly dataset, in the schedule returned by
`create_schedule_from_weekly`, for every (day, shift) slot the sum of the
placed quantities of non-exempt products never exceeds the slot's ceiling
`DAILY_LIMIT = 200`.  The engine has no capacity-exempt products, so the
bound holds for every choice of exempt set (the empty one included). -/
theorem claim1_capacity_invariant (rows : List Row) (exempt : String → Bool)
    (d : Nat) (s : Shift) :
    slotQtySumNonExempt exempt ((createScheduleFromWeekly rows).sched d s) ≤
      DAILY_LIMIT := by
  obtain ⟨hsum, hle, -, hent⟩ := masterInv_create rows d s
  have h1 := slotQtySumNonExempt_le exempt
    (l := (createScheduleFromWeekly rows).sched d s)
    (fun pe hpe => le_of_lt (hent pe hpe).1)
  omega

/-- C2 is false on the code: for the sales history `c2sales` (Mondays
day 21 and day 28) the claimed profile — ceiling of the 28-day-window
Monday total divided by the number of distinct Monday dates — is
⌈(5+3)/2⌉ = 4, but the engine's weekly row carries Monday = 5, the
quantity of the single selected week's Monday alone. -/
theorem claim2_counterexample :
    ((weeklyRowOf (loadSalesForWeek c2sales 28) c2inv 28).map fun r => r.mon) =
      some 5 ∧
    claimWeekdayDemand c2sales "A" 35 0 = 4 ∧ (5 : Int) ≠ 4 :=
  ⟨by decide, by decide, by decide⟩

/-- C2 (amended): the engine's weekday profile maps each weekday
Monday–Saturday to the total quantity sold on that *single* calendar date
of the one user-selected sales week — no trailing 28-day window, no
distinct-date averaging, no ceiling.  (Next-Monday/Tuesday fall back to
this week's Monday/Tuesday, since the loaded window cannot contain them.) -/
theorem claim2_amended (allSales : List Sale) (inv : InvRow) (monday : Int)
    (row : Row)
    (h : weeklyRowOf (loadSalesForWeek allSales monday) inv monday = some row) :
    row.mon = ((allSales.filter fun s =>
        pyStrip s.productCode == pyStrip inv.code && s.saleDate == monday + 0).map
      fun s => s.quantity).sum ∧
    row.tue = ((allSales.filter fun s =>
        pyStrip s.productCode == pyStrip inv.code && s.saleDate == monday + 1).map
      fun s => s.quantity).sum ∧
    row.wed = ((allSales.filter fun s =>
        pyStrip s.productCode == pyStrip inv.code && s.saleDate == monday + 2).map
      fun s => s.quantity).sum ∧
    row.thu = ((allSales.filter fun s =>
        pyStrip s.productCode == pyStrip inv.code && s.saleDate == monday + 3).map
      fun s => s.quantity).sum ∧
    row.fri = ((allSales.filter fun s =>
        pyStrip s.productCode == pyStrip inv.code && s.saleDate == monday + 4).map
      fun s => s.quantity).sum ∧
    row.sat = ((allSales.filter fun s =>
        pyStrip s.productCode == pyStrip inv.code && s.saleDate == monday + 5).map
      fun s => s.quantity).sum := by
  simp only [weeklyRowOf] at h
  split at h
  · exact Option.noConfusion h
  · injection h with h1
    subst h1
    refine ⟨?_, ?_, ?_, ?_, ?_, ?_⟩ <;>
      exact sumQtyAt_load allSales (pyStrip inv.code) monday _ (by norm_num)
        (by norm_num)

/-- Witness for `claim2_amended` at the concrete input `c2sales`. -/
theorem claim2_amended_witness :
    weeklyRowOf (loadSalesForWeek c2sales 28) c2inv 28 = some c2row ∧
    c2row.mon = ((c2sales.filter fun s =>
        pyStrip s.productCode == pyStrip c2inv.code &&
          s.saleDate == (28 : Int) + 0).map fun s => s.quantity).sum :=
  ⟨by decide, (claim2_amended c2sales c2inv 28 c2row (by decide)).1⟩

/-- C3 is false on the code: for `c3row` the engine derives a first-week
event of 201 units (and a next-week event of 201 units), no slot can take
201 ≤ 200 units, and the run ends with *nothing* placed — no part of
the quantity is kept, and the returned state records no shortfall. -/
theorem claim3_counterexample :
    ((firstWeekSortedOf [c3row]).map fun pl => pl.qty) = [201] ∧
    ((nextWeekPlanOf [c3row]).map fun pl => pl.qty) = [201] ∧
    totalPlacedQty (createScheduleFromWeekly [c3row]) = 0 :=
  ⟨by decide, by decide, by decide⟩

/-- C3 (amended): placement of an event is all-or-nothing — each placement
loop either leaves the allocation state entirely unchanged (the event is
dropped silently) or adds the event's whole quantity to the week's total;
no fraction of the quantity is ever seated. -/
theorem claim3_amended (st : SchedState) (pl : Plan) (h : pl.deadline ≤ 4) :
    (fwPlacePlan st pl = st ∨
      totalPlacedQty (fwPlacePlan st pl) = totalPlacedQty st + pl.qty) ∧
    (nwPlacePlan st pl = st ∨
      totalPlacedQty (nwPlacePlan st pl) = totalPlacedQty st + pl.qty) := by
  constructor
  · rcases fwPlacePlan_cases st pl with h1 | ⟨day, sh, hd, hfr, hsum, -⟩
    · exact Or.inl h1
    · exact Or.inr (totalPlacedQty_update (le_trans hd h) hfr hsum)
  · rcases nwPlacePlan_cases st pl with h1 | ⟨day, sh, hd, hfr, hsum, -⟩
    · exact Or.inl h1
    · exact Or.inr (totalPlacedQty_update (le_trans hd h) hfr hsum)

/-- Witness for `claim3_amended` at the 201-unit event from `c3row`. -/
theorem claim3_amended_witness :
    c3plan.deadline ≤ 4 ∧
    ((fwPlacePlan schedInit c3plan = schedInit ∨
      totalPlacedQty (fwPlacePlan schedInit c3plan) =
        totalPlacedQty schedInit + c3plan.qty) ∧
     (nwPlacePlan schedInit c3plan = schedInit ∨
      totalPlacedQty (nwPlacePlan schedInit c3plan) =
        totalPlacedQty schedInit + c3plan.qty)) :=
  ⟨by decide, claim3_amended schedInit c3plan (by decide)⟩

/-- C4 is false on the code: product "B" of `c4row` has minimum batch size
0, yet its Monday shortfall of 5 produces an event that is placed — it
appears in the output schedule with quantity 5. -/
theorem claim4_counterexample :
    c4row.minQty = 0 ∧
    qtyIn ((createScheduleFromWeekly [c4row]).sched 0 Shift.day) "B" = 5 :=
  ⟨by decide, by decide⟩

/-- C4 (amended): the engine's only product-dropping rule is the weekly
sales filter — a product all of whose rows have non-positive Monday–Friday
sales total never appears in the output schedule; a minimum batch size of 0
merely disables the batch floor. -/
theorem claim4_amended (rows : List Row) (p : String)
    (h : ∀ r ∈ rows, r.product = p → ¬ 0 < r.weeklySales) (d : Nat) (s : Shift) :
    findEnt ((createScheduleFromWeekly rows).sched d s) p = none := by
  cases hfe : findEnt ((createScheduleFromWeekly rows).sched d s) p with
  | none => rfl
  | some pe =>
    obtain ⟨hpe1, hpemem⟩ := findEnt_some hfe
    obtain ⟨-, -, -, hent⟩ := masterInv_create rows d s
    obtain ⟨r', hr', hprod, -⟩ := (hent pe hpemem).2
    obtain ⟨r, hr, hrp, -, hw⟩ := prepRows_mem_fields hr'
    exact absurd hw (h r hr (by rw [← hrp, hprod, hpe1]))

/-- Witness for `claim4_amended` at the zero-sales row `c4zrow`. -/
theorem claim4_amended_witness :
    (∀ r ∈ [c4zrow], r.product = "Z" → ¬ 0 < r.weeklySales) ∧
    findEnt ((createScheduleFromWeekly [c4zrow]).sched 0 Shift.day) "Z" = none :=
  ⟨by decide, claim4_amended [c4zrow] "Z" (by decide) 0 Shift.day⟩

/-- C5 is false on the code: on spec §8 Scenario 1 (`c5row`: stock 10,
demand 5 each day) the claimed 3-day lookahead flags Monday
(5+5+5 = 15 > 10) and every later day, but the engine's first pass — whose
window is only 2 days for Monday–Thursday — does not flag Monday. -/
theorem claim5_counterexample :
    firstPassFlags c5row = [1, 2, 3, 4] ∧
    claimFlags c5row = [0, 1, 2, 3, 4] ∧
    firstPassFlags c5row ≠ claimFlags c5row :=
  ⟨by decide, by decide, by decide⟩

/-- C5 (amended): for days 0–3 the engine looks ahead exactly 2 days
(today and tomorrow); it flags the day iff stock is below that 2-day sum or
stock-after-today's-sales is below the week's maximum single-day sales, and
in the first case the event quantity is the end-of-window deficit, raised
to the minimum batch when one is configured.  (Friday instead uses
Friday + Saturday + next-Monday + next-Tuesday.) -/
theorem claim5_amended (r : Row) (stock : Int) (i : Nat) (hi : i ≤ 3) :
    ((firstPassDay r i stock).1.isSome ↔
      stock < r.daySales i + r.daySales (i + 1) ∨
        stock - r.daySales i < r.maxDailySales) ∧
    (stock < r.daySales i + r.daySales (i + 1) →
      ∃ pl : Plan, (firstPassDay r i stock).1 = some pl ∧
        pl.qty = (if 0 < r.minQty
          then max (r.daySales i + r.daySales (i + 1) - stock) r.minQty
          else r.daySales i + r.daySales (i + 1) - stock)) := by
  have hi4 : ¬ i = 4 := by omega
  constructor
  · simp only [firstPassDay, if_neg hi4]
    split
    · rename_i hcond
      simpa using hcond
    · rename_i hcond
      simpa using hcond
  · intro h2
    simp only [firstPassDay, if_neg hi4]
    rw [if_pos (Or.inl h2)]
    refine ⟨_, rfl, ?_⟩
    show (if _ then _ else _) = _
    by_cases hm : 0 < r.minQty <;> simp [h2, hm]

/-- Witness for `claim5_amended` at Scenario 1's row and Monday. -/
theorem claim5_amended_witness :
    (0 : Nat) ≤ 3 ∧
    (((firstPassDay c5row 0 c5row.stock).1.isSome ↔
      c5row.stock < c5row.daySales 0 + c5row.daySales (0 + 1) ∨
        c5row.stock - c5row.daySales 0 < c5row.maxDailySales) ∧
    (c5row.stock < c5row.daySales 0 + c5row.daySales (0 + 1) →
      ∃ pl : Plan, (firstPassDay c5row 0 c5row.stock).1 = some pl ∧
        pl.qty = (if 0 < c5row.minQty
          then max (c5row.daySales 0 + c5row.daySales (0 + 1) - c5row.stock)
            c5row.minQty
          else c5row.daySales 0 + c5row.daySales (0 + 1) - c5row.stock))) :=
  ⟨by decide, claim5_amended c5row c5row.stock 0 (by decide)⟩

/-- C6 is false on the code: the allocator consumes `c6row`'s events in the
order produced by the urgency sort — target days [2, 1, 3] — which is not
sorted by target day ascending, contradicting the claimed
(day ↑, quantity ↓) consumption order. -/
theorem claim6_counterexample :
    ((firstWeekSortedOf [c6row] ++ nextWeekPlanOf [c6row]).map
        fun pl => pl.deadline).take 3 = [2, 1, 3] ∧
    ¬ List.Pairwise (fun a b : Plan => a.deadline ≤ b.deadline)
        (firstWeekSortedOf [c6row] ++ nextWeekPlanOf [c6row]) :=
  ⟨by decide, by decide⟩

/-- C6 (amended): the allocator consumes all first-week events before all
next-week events; first-week events are ordered by nonincreasing urgency
(`get_urgency` of the justification string, ties in insertion order), and
next-week events by target day ascending with ties by `quantity × seconds`
(work time, not quantity) descending. -/
theorem claim6_amended (rows : List Row) :
    List.Pairwise (fun a b => fwSortLe a b = true) (firstWeekSortedOf rows) ∧
    List.Pairwise (fun a b => addPlanLe a b = true) (nextWeekPlanOf rows) := by
  constructor
  · exact pairwise_stableSort fwSortLe_total fwSortLe_trans _
  · rw [nextWeekPlanOf_eq]
    exact pairwise_stableSort addPlanLe_total addPlanLe_trans _

/-- C7 is false on the code: there is no mutual-exclusion handling — the
two distinct products `(쿠)C` and `(쿠)D`, both needing production on
Monday (deadline 0), are both placed on Monday's day shift. -/
theorem claim7_counterexample :
    qtyIn ((createScheduleFromWeekly [c7rowC, c7rowD]).sched 0 Shift.day)
      "(쿠)C" = 5 ∧
    qtyIn ((createScheduleFromWeekly [c7rowC, c7rowD]).sched 0 Shift.day)
      "(쿠)D" = 5 :=
  ⟨by decide, by decide⟩

/-- C7 (amended): a placement decision never depends on *which other*
products already occupy the day — `trySlot` reads only the slot's running
quantity and time totals and the entry of the product being placed, so two
states that agree on those accept or reject the event identically; no
product is ever deferred on account of another product's presence. -/
theorem claim7_amended (st₁ st₂ : SchedState) (day : Nat) (sh : Shift)
    (p : String) (qty sec : Int) (reason : String) (urg : Int)
    (h1 : st₁.dsum day sh = st₂.dsum day sh)
    (h2 : st₁.dtime day sh = st₂.dtime day sh)
    (h3 : findEnt (st₁.sched day sh) p = findEnt (st₂.sched day sh) p) :
    (trySlot st₁ day sh p qty sec reason urg).isSome =
      (trySlot st₂ day sh p qty sec reason urg).isSome := by
  simp only [trySlot]
  rw [h3, h1, h2]
  split <;> split <;> rfl

/-- Witness for `claim7_amended`: the empty state and a state holding an
unrelated entry "X" with the same running totals. -/
theorem claim7_amended_witness :
    c7stA.dsum 0 Shift.day = c7stB.dsum 0 Shift.day ∧
    c7stA.dtime 0 Shift.day = c7stB.dtime 0 Shift.day ∧
    findEnt (c7stA.sched 0 Shift.day) "P" = findEnt (c7stB.sched 0 Shift.day) "P" ∧
    (trySlot c7stA 0 Shift.day "P" 5 1 "r" 0).isSome =
      (trySlot c7stB 0 Shift.day "P" 5 1 "r" 0).isSome :=
  ⟨by decide, by decide, by decide,
   claim7_amended c7stA c7stB 0 Shift.day "P" 5 1 "r" 0 (by decide) (by decide)
     (by decide)⟩

/-- C8: a product whose production-timing tag strips to `"주"` (day-only)
never appears in a night-shift slot of the output; one stripping to `"야"`
(night-only) never appears in a day-shift slot; every other tag value makes
both shifts candidates. -/
theorem claim8_shift_eligibility :
    (∀ (rows : List Row) (p : String),
        (∀ r ∈ rows, r.product = p → pyStrip r.timing = "주") →
        ∀ d : Nat,
          findEnt ((createScheduleFromWeekly rows).sched d Shift.night) p = none) ∧
    (∀ (rows : List Row) (p : String),
        (∀ r ∈ rows, r.product = p → pyStrip r.timing = "야") →
        ∀ d : Nat,
          findEnt ((createScheduleFromWeekly rows).sched d Shift.day) p = none) ∧
    (∀ t : String, pyStrip t ≠ "주" → pyStrip t ≠ "야" →
        getAllowedShifts t = [Shift.day, Shift.night]) := by
  refine ⟨?_, ?_, ?_⟩
  · intro rows p hp d
    cases hfe : findEnt ((createScheduleFromWeekly rows).sched d Shift.night) p with
    | none => rfl
    | some pe =>
      obtain ⟨hpe1, hpemem⟩ := findEnt_some hfe
      obtain ⟨-, -, -, hent⟩ := masterInv_create rows d Shift.night
      obtain ⟨r', hr', hprod, hsh⟩ := (hent pe hpemem).2
      obtain ⟨r, hr, hrp, hrt, -⟩ := prepRows_mem_fields hr'
      have ht : pyStrip r.timing = "주" := hp r hr (by rw [← hrp, hprod, hpe1])
      rw [hrt, ht] at hsh
      have : getAllowedShifts (normTiming "주") = [Shift.day] := by decide
      rw [this] at hsh
      simp at hsh
  · intro rows p hp d
    cases hfe : findEnt ((createScheduleFromWeekly rows).sched d Shift.day) p with
    | none => rfl
    | some pe =>
      obtain ⟨hpe1, hpemem⟩ := findEnt_some hfe
      obtain ⟨-, -, -, hent⟩ := masterInv_create rows d Shift.day
      obtain ⟨r', hr', hprod, hsh⟩ := (hent pe hpemem).2
      obtain ⟨r, hr, hrp, hrt, -⟩ := prepRows_mem_fields hr'
      have ht : pyStrip r.timing = "야" := hp r hr (by rw [← hrp, hprod, hpe1])
      rw [hrt, ht] at hsh
      have : getAllowedShifts (normTiming "야") = [Shift.night] := by decide
      rw [this] at hsh
      simp at hsh
  · intro t h1 h2
    by_cases ht : t = ""
    · subst ht
      decide
    · simp only [getAllowedShifts, ne_eq, ht, not_false_eq_true, if_true]
      rw [if_neg h1, if_neg h2]

/-- Witness for `claim8_shift_eligibility`: a day-only product never in the
night shift, a night-only product never in the day shift, and an
either-timing tag yielding both shifts. -/
theorem claim8_witness :
    (∀ r ∈ [c8row], r.product = "E" → pyStrip r.timing = "주") ∧
    findEnt ((createScheduleFromWeekly [c8row]).sched 0 Shift.night) "E" = none ∧
    (∀ r ∈ [c8nrow], r.product = "N" → pyStrip r.timing = "야") ∧
    findEnt ((createScheduleFromWeekly [c8nrow]).sched 0 Shift.day) "N" = none ∧
    getAllowedShifts "주야" = [Shift.day, Shift.night] :=
  ⟨by decide, claim8_shift_eligibility.1 [c8row] "E" (by decide) 0,
   by decide, claim8_shift_eligibility.2.1 [c8nrow] "N" (by decide) 0,
   claim8_shift_eligibility.2.2 "주야" (by decide) (by decide)⟩

/-- C9: every production event is placed atomically — each placement loop
either leaves the state unchanged or puts the event's entire quantity into
exactly one (day, shift) slot with the day at most the event's deadline;
quantities are never split across shifts or days. -/
theorem claim9_atomic_placement (st : SchedState) (pl : Plan) :
    (fwPlacePlan st pl = st ∨ ∃ day sh, day ≤ pl.deadline ∧
      (∀ d s, ¬(d = day ∧ s = sh) → (fwPlacePlan st pl).sched d s = st.sched d s) ∧
      qtyIn ((fwPlacePlan st pl).sched day sh) pl.product =
        qtyIn (st.sched day sh) pl.product + pl.qty) ∧
    (nwPlacePlan st pl = st ∨ ∃ day sh, day ≤ pl.deadline ∧
      (∀ d s, ¬(d = day ∧ s = sh) → (nwPlacePlan st pl).sched d s = st.sched d s) ∧
      qtyIn ((nwPlacePlan st pl).sched day sh) pl.product =
        qtyIn (st.sched day sh) pl.product + pl.qty) := by
  constructor
  · rcases fwPlacePlan_cases st pl with h | ⟨day, sh, hd, hfr, -, hq⟩
    · exact Or.inl h
    · exact Or.inr ⟨day, sh, hd, hfr, hq⟩
  · rcases nwPlacePlan_cases st pl with h | ⟨day, sh, hd, hfr, -, hq⟩
    · exact Or.inl h
    · exact Or.inr ⟨day, sh, hd, hfr, hq⟩

/-- C10 is false on the code: with two rows named `(쿠)P` carrying
different per-unit seconds (100 and 200), the accumulate branch books the
old entry's time out with the *new* seconds, and Monday's day shift ends at
188 × 200 = 37600 seconds of true production time — beyond
`WORK_HOURS = 28800`. -/
theorem claim10_counterexample :
    slotTimeSum ((createScheduleFromWeekly [c10r1, c10r2]).sched 0 Shift.day) =
      37600 ∧
    WORK_HOURS <
      slotTimeSum ((createScheduleFromWeekly [c10r1, c10r2]).sched 0 Shift.day) :=
  ⟨by decide, by decide⟩

/-- C10 (amended): when every input row of a product name carries one and
the same per-unit-seconds value, each slot's total production time — the
sum over entries of quantity × seconds — never exceeds
`WORK_HOURS = 28800`, and an event whose addition would exceed it is not
placed in that slot. -/
theorem claim10_amended (rows : List Row) (f : String → Int)
    (hf : ∀ r ∈ rows, r.sec = f r.product) (d : Nat) (s : Shift) :
    slotTimeSum ((createScheduleFromWeekly rows).sched d s) ≤ WORK_HOURS := by
  have h1 := (timeInv_create rows f hf d s).1
  have h2 := (masterInv_create rows d s).2.2.1
  omega

/-- Witness for `claim10_amended` with a single row of 100 s/unit. -/
theorem claim10_amended_witness :
    (∀ r ∈ [c10r1], r.sec = (fun _ : String => (100 : Int)) r.product) ∧
    slotTimeSum ((createScheduleFromWeekly [c10r1]).sched 0 Shift.day) ≤
      WORK_HOURS :=
  ⟨by decide, claim10_amended [c10r1] (fun _ => 100) (by decide) 0 Shift.day⟩

end ProdSched
